import Mathlib

/-!
Verification of the metadata-reconciliation pipeline of the ReferenceHub
repository (src/utils/doiLookup.js, src/utils/pdfMetadata.js — which bundles
academicSearch.js and journalRanking.js — and src/utils/cerebrasService.js).

Strings are modelled as `List Char`; JavaScript string utilities and the
concrete regular expressions used by the source are translated into
executable Lean functions.  JavaScript regex replacement with the `g` flag
scans the string left to right for non-overlapping matches; that semantics
is implemented by the recursive functions below.  Scanning functions whose
recursion is not structural carry an explicit fuel argument (initialised to
the string length, which a step never exceeds) so that they stay
kernel-computable; the wrapper without fuel is the modelled function.
-/

/-- JavaScript whitespace class `\s` (ASCII part; the source texts never use
the exotic Unicode members). Used by `.trim()`, `\s+` and `[^\s]`. -/
def isWS (c : Char) : Bool :=
  c = ' ' || c = '\t' || c = '\n' || c = '\r' || c = '\x0b' || c = '\x0c'

/-- JavaScript word-character class `\w` = `[A-Za-z0-9_]`, used by `\b`. -/
def isWordChar (c : Char) : Bool :=
  ('a' ≤ c && c ≤ 'z') || ('A' ≤ c && c ≤ 'Z') || ('0' ≤ c && c ≤ '9') || c = '_'

/-- The trailing-punctuation class `[.,;:!?]` of `extractDOI`. -/
def isPunctEnd (c : Char) : Bool :=
  c = '.' || c = ',' || c = ';' || c = ':' || c = '!' || c = '?'

/-- JavaScript `String.prototype.trim()`: drop whitespace from both ends. -/
def trimWS (l : List Char) : List Char :=
  ((l.dropWhile isWS).reverse.dropWhile isWS).reverse

/-- JavaScript `.replace(/\s+/g, ' ')`: every maximal whitespace run becomes
a single space.  The flag records whether the previous character was
whitespace (in which case the current run has already emitted its space). -/
def collapseWSAux (prevWS : Bool) : List Char → List Char
  | [] => []
  | c :: rest =>
    if isWS c then
      if prevWS then collapseWSAux true rest else ' ' :: collapseWSAux true rest
    else c :: collapseWSAux false rest

def collapseWS (l : List Char) : List Char := collapseWSAux false l

/-- JavaScript `.replace(pat, rep)` for a *literal* global pattern: replace
every non-overlapping occurrence of `pat`, scanning left to right.  (All
patterns used in this development are non-empty; the `pat ≠ []` guard only
rules out the degenerate empty pattern.) -/
def replaceStrAux (pat rep : List Char) : Nat → List Char → List Char
  | _, [] => []
  | 0, l => l
  | fuel + 1, c :: rest =>
    if pat.isPrefixOf (c :: rest) ∧ pat ≠ [] then
      rep ++ replaceStrAux pat rep fuel (rest.drop (pat.length - 1))
    else c :: replaceStrAux pat rep fuel rest

def replaceStr (pat rep l : List Char) : List Char :=
  replaceStrAux pat rep l.length l

/-- JavaScript `.replace(pat, rep)` for a literal pattern *without* the `g`
flag: replace only the first occurrence. -/
def replaceFirstStr (pat rep : List Char) : List Char → List Char
  | [] => []
  | c :: rest =>
    if pat.isPrefixOf (c :: rest) ∧ pat ≠ [] then
      rep ++ rest.drop (pat.length - 1)
    else c :: replaceFirstStr pat rep rest

/-- Numeric value of a digit string (JavaScript `parseInt` on an all-digit
match). -/
def digitsVal (l : List Char) : Nat :=
  l.foldl (fun n c => 10 * n + (c.toNat - 48)) 0

/-- Pass 1, `/<jats:[^>]+>/g` — first removal pass of `cleanAbstract`
(doiLookup.js line 15).  A match is `<jats:`, then at least one character up
to (and excluding) the first `>` after it, then that `>`; on a failed match
the scan advances one character, as the JavaScript engine does. -/
def removeJatsOpenAux : Nat → List Char → List Char
  | _, [] => []
  | 0, l => l
  | fuel + 1, c :: rest =>
    if c = '<' ∧ "jats:".toList.isPrefixOf rest ∧
        ((rest.drop 5).takeWhile (· ≠ '>')) ≠ [] ∧
        ((rest.drop 5).dropWhile (· ≠ '>')) ≠ [] then
      removeJatsOpenAux fuel ((rest.drop 5).dropWhile (· ≠ '>')).tail
    else c :: removeJatsOpenAux fuel rest

def removeJatsOpen (l : List Char) : List Char := removeJatsOpenAux l.length l

/-- Pass 2, `/<\/jats:[^>]+>/g` — second removal pass of `cleanAbstract`
(doiLookup.js line 16). -/
def removeJatsCloseAux : Nat → List Char → List Char
  | _, [] => []
  | 0, l => l
  | fuel + 1, c :: rest =>
    if c = '<' ∧ "/jats:".toList.isPrefixOf rest ∧
        ((rest.drop 6).takeWhile (· ≠ '>')) ≠ [] ∧
        ((rest.drop 6).dropWhile (· ≠ '>')) ≠ [] then
      removeJatsCloseAux fuel ((rest.drop 6).dropWhile (· ≠ '>')).tail
    else c :: removeJatsCloseAux fuel rest

def removeJatsClose (l : List Char) : List Char := removeJatsCloseAux l.length l

/-- Pass 3, `/<[^>]+>/g` — third removal pass of `cleanAbstract` (doiLookup.js
line 19): any `<`, at least one non-`>` character, then the first `>`. -/
def removeTagsAux : Nat → List Char → List Char
  | _, [] => []
  | 0, l => l
  | fuel + 1, c :: rest =>
    if c = '<' ∧ (rest.takeWhile (· ≠ '>')) ≠ [] ∧
        (rest.dropWhile (· ≠ '>')) ≠ [] then
      removeTagsAux fuel (rest.dropWhile (· ≠ '>')).tail
    else c :: removeTagsAux fuel rest

def removeTags (l : List Char) : List Char := removeTagsAux l.length l

/-- Model of `cleanAbstract` (doiLookup.js lines 11–32; the identical copy in the
academic-search module): strip JATS tags, strip any other angle-bracket
tags, decode the five HTML entities, collapse whitespace and trim.
`if (!text) return ''` is subsumed: every pass maps `[]` to `[]`. -/
def cleanAbstract (text : List Char) : List Char :=
  let c1 := removeJatsOpen text
  let c2 := removeJatsClose c1
  let c3 := removeTags c2
  let c4 := replaceStr "&lt;".toList "<".toList c3
  let c5 := replaceStr "&gt;".toList ">".toList c4
  let c6 := replaceStr "&amp;".toList "&".toList c5
  let c7 := replaceStr "&quot;".toList "\"".toList c6
  let c8 := replaceStr "&apos;".toList ['\''] c7
  trimWS (collapseWS c8)

/-- String-level wrapper for `cleanAbstract`, used by the adapter field
mappings. -/
def cleanAbstractS (s : String) : String :=
  (cleanAbstract s.data).asString

/-! ### DOI extraction (doiLookup.js lines 125–150) -/

/-- Match a literal pattern case-insensitively (`/i` flag) at the head of
the text, returning the remainder.  The pattern is given in lower case. -/
def ciPrefix : List Char → List Char → Option (List Char)
  | [], t => some t
  | _ :: _, [] => none
  | p :: ps, c :: cs => if c.toLower = p then ciPrefix ps cs else none

/-- The capturing group `(10\.\d{4,}\/[^\s]+)` of `extractDOI`, matched at
the head of `l`: literal `10.`, a maximal digit run of length ≥ 4 (greedy
`\d{4,}` must stop at the first non-digit, which the pattern requires to be
`/`), then `/`, then a maximal non-empty run of non-whitespace characters
(greedy `[^\s]+` with nothing after it in the pattern). -/
def tryDoiTail (l : List Char) : Option (List Char) :=
  match l with
  | '1' :: '0' :: '.' :: rest =>
    let ds := rest.takeWhile Char.isDigit
    if 4 ≤ ds.length then
      match rest.dropWhile Char.isDigit with
      | '/' :: rest3 =>
        let ns := rest3.takeWhile (fun c => !(isWS c))
        if ns = [] then none else some ('1' :: '0' :: '.' :: (ds ++ '/' :: ns))
      | _ => none
    else none
  | _ => none

/-- Pattern 1, `/doi:\s*(10\.\d{4,}\/[^\s]+)/i` (and the third pattern
`/DOI:\s*(10\.\d{4,}\/[^\s]+)/i`, which is the same case-insensitive
pattern): scan left to right for `doi:` (case-insensitive), skip
whitespace, and match the DOI group; on failure the scan advances one
character. Returns the capturing group of the first match. -/
def findDoiPrefixed : List Char → Option (List Char)
  | [] => none
  | c :: rest =>
    match ciPrefix "doi:".toList (c :: rest) with
    | some after =>
      match tryDoiTail (after.dropWhile isWS) with
      | some g => some g
      | none => findDoiPrefixed rest
    | none => findDoiPrefixed rest

/-- Pattern 2, `/https?:\/\/doi\.org\/(10\.\d{4,}\/[^\s]+)/i`: scan for the URL prefix
(with or without the optional `s`), then match the DOI group. -/
def findDoiUrl : List Char → Option (List Char)
  | [] => none
  | c :: rest =>
    let attempt :=
      match ciPrefix "https://doi.org/".toList (c :: rest) with
      | some after => tryDoiTail after
      | none =>
        match ciPrefix "http://doi.org/".toList (c :: rest) with
        | some after => tryDoiTail after
        | none => none
    match attempt with
    | some g => some g
    | none => findDoiUrl rest

/-- Backtracking for the trailing `\b` of the bare pattern: given the
greedy `[^\s]+` run *reversed* and the word-ness of the character following
it (end of input counts as non-word), drop characters from the end until a
word/non-word transition holds; returns the surviving run reversed, or
`none` when no non-empty prefix ends at a boundary. -/
def btbAux : List Char → Bool → Option (List Char)
  | [], _ => none
  | c :: rev, nextWord =>
    if isWordChar c ≠ nextWord then some (c :: rev) else btbAux rev (isWordChar c)

/-- The bare pattern's group with its trailing `\b`:
`10\.\d{4,}\/[^\s]+\b` matched at the head of `l`. -/
def tryDoiTailBare (l : List Char) : Option (List Char) :=
  match l with
  | '1' :: '0' :: '.' :: rest =>
    let ds := rest.takeWhile Char.isDigit
    if 4 ≤ ds.length then
      match rest.dropWhile Char.isDigit with
      | '/' :: rest3 =>
        let ns := rest3.takeWhile (fun c => !(isWS c))
        let nextWord :=
          match rest3.dropWhile (fun c => !(isWS c)) with
          | a :: _ => isWordChar a
          | [] => false
        match btbAux ns.reverse nextWord with
        | some revNs => some ('1' :: '0' :: '.' :: (ds ++ '/' :: revNs.reverse))
        | none => none
      | _ => none
    else none
  | _ => none

/-- The leading `\b` of the bare pattern: it holds iff the previous
character is absent or a non-word character, since the match starts with
the word character `1`. -/
def leadingBoundaryOk (prev : Option Char) : Bool :=
  match prev with | none => true | some p => !(isWordChar p)

/-- Pattern 4, `/\b(10\.\d{4,}\/[^\s]+)\b/` — the bare pattern.  `prev` is the
character before the current scan position (`none` at the start). -/
def findDoiBare (prev : Option Char) : List Char → Option (List Char)
  | [] => none
  | c :: rest =>
    match (if leadingBoundaryOk prev then tryDoiTailBare (c :: rest) else none) with
    | some g => some g
    | none => findDoiBare (some c) rest

/-- The step `doi.replace(/[.,;:!?]$/, '')`: strip a single trailing punctuation
character, if any. -/
def stripTrailingPunct (l : List Char) : List Char :=
  match l.reverse with
  | c :: r => if isPunctEnd c then r.reverse else l
  | [] => l

/-- Model of `extractDOI` (doiLookup.js lines 125–150): try the four patterns in
order — `doi:` prefix, doi.org URL, `DOI:` prefix (the same
case-insensitive pattern as the first), bare — and return the first
capturing-group match, trimmed, with one trailing punctuation character
stripped; `none` when nothing matches (also for the `!text` guard, since no
pattern matches the empty string). -/
def extractDOIL (text : List Char) : Option (List Char) :=
  match findDoiPrefixed text with
  | some m => some (stripTrailingPunct (trimWS m))
  | none =>
    match findDoiUrl text with
    | some m => some (stripTrailingPunct (trimWS m))
    | none =>
      match findDoiPrefixed text with
      | some m => some (stripTrailingPunct (trimWS m))
      | none =>
        match findDoiBare none text with
        | some m => some (stripTrailingPunct (trimWS m))
        | none => none

/-! ### Year extraction (`extractYear`, pdfMetadata.js lines 163–193) -/

/-- Pattern `/(\d{4})/` without `g`: the first four consecutive digits of the
creation-date string. -/
def fourDigitRun : List Char → Option (List Char)
  | a :: b :: c :: d :: rest =>
    if a.isDigit && b.isDigit && c.isDigit && d.isDigit then some [a, b, c, d]
    else fourDigitRun (b :: c :: d :: rest)
  | _ => none

/-- The alternation `(19\d{2}|20[0-2]\d)` on four characters. -/
def isYearToken (a b c d : Char) : Bool :=
  (a = '1' && b = '9' && c.isDigit && d.isDigit) ||
  (a = '2' && b = '0' && (c = '0' || c = '1' || c = '2') && d.isDigit)

/-- The scan `text.match(/\b(19\d{2}|20[0-2]\d)\b/g)`: all matches, left to right;
after a match the scan resumes after its four characters, otherwise it
advances one character.  `prev` carries the previous character for the
leading `\b` (the token starts with a digit, a word character). -/
def scanYearsAux : Nat → Option Char → List Char → List Nat
  | fuel + 1, prev, a :: b :: c :: d :: tail =>
    let pre := match prev with | none => true | some p => !(isWordChar p)
    if pre && isYearToken a b c d &&
        (match tail with | t :: _ => !(isWordChar t) | [] => true) then
      digitsVal [a, b, c, d] :: scanYearsAux fuel (some d) tail
    else scanYearsAux fuel (some a) (b :: c :: d :: tail)
  | _, _, _ => []

def scanYears (text : List Char) : List Nat := scanYearsAux text.length none text

/-- Model of `.sort((a, b) => b - a)`: the contract of the JavaScript numeric sort
with this comparator is exactly a descending sort. -/
def sortDesc (l : List Nat) : List Nat := List.insertionSort (· ≥ ·) l

/-- The creation-date branch of `extractYear` (lines 165–173): first
four-digit run of the embedded creation date, accepted when within
`[1900, currentYear + 1]`. -/
def yearFromCreationDate (cd : Option (List Char)) (currentYear : Nat) : Option Nat :=
  match cd with
  | some s =>
    match fourDigitRun s with
    | some ds =>
      let y := digitsVal ds
      if 1900 ≤ y ∧ y ≤ currentYear + 1 then some y else none
    | none => none
  | none => none

/-- Lines 176–192: scan the text for year tokens, keep those within
`[1900, currentYear + 1]`, sort descending and take the first; default to
the current year. -/
def extractYearFromText (text : List Char) (currentYear : Nat) : Nat :=
  let validYears :=
    sortDesc ((scanYears text).filter (fun y => 1900 ≤ y && y ≤ currentYear + 1))
  match validYears with
  | y :: _ => y
  | [] => currentYear

/-- Model of `extractYear` (pdfMetadata.js lines 163–193). -/
def extractYear (cd : Option (List Char)) (text : List Char) (currentYear : Nat) : Nat :=
  match yearFromCreationDate cd currentYear with
  | some y => y
  | none => extractYearFromText text currentYear

/-! ### JavaScript value helpers for the record mappings -/

/-- JavaScript `a || b` on strings: the empty string is falsy. -/
def jsOrS (a b : String) : String := if a = "" then b else a

/-- JavaScript `a || b` where `a` is a possibly-absent number: `undefined`
and `0` (and `NaN`, which cannot arise here) are falsy. -/
def jsOrI (a : Option Int) (b : Int) : Int :=
  match a with
  | some n => if n = 0 then b else n
  | none => b

/-- JavaScript `.trim()` on a `String` value. -/
def jsTrim (s : String) : String := (trimWS s.data).asString

/-! ### Normalized records and the lookup adapters
(academic-search module inside pdfMetadata.js) -/

/-- The common record shape produced by the three title-search adapters and
consumed by the merge step of `extractPDFMetadata`.  Only the fields the
merge step and the verified claims read are modelled; the remaining
pass-through fields (`volume`, `issue`, `pages`, `publisher`, `url`,
`issn`, `isbn`, `language`, `references`, `citations`) are dropped by the
merge and play no role in any claim.  `year` is an `Option` because the
merge step must also cover a hit whose `year` field is absent. -/
structure AcademicRecord where
  title : String
  authors : List String
  year : Option Int
  journal : String
  abstract : String
  doi : String
  type : String
  source : String
deriving Repr, DecidableEq

/-- The record produced by the text-heuristics extractor
(`pdfExtractedData`, pdfMetadata.js lines 48–55). -/
structure PdfRecord where
  title : String
  authors : List String
  year : Int
  abstract : String
  doi : String
  journal : String
deriving Repr, DecidableEq

/-- Model of `mapPublicationType` (academic-search module lines 514–527):
case-insensitive table lookup defaulting to "Journal Article". -/
def mapPublicationType (t : Option String) : String :=
  match t with
  | none => "Journal Article"
  | some s =>
    let k := (s.data.map Char.toLower).asString
    if k = "journal-article" then "Journal Article"
    else if k = "article" then "Journal Article"
    else if k = "proceedings-article" then "Conference Paper"
    else if k = "book-chapter" then "Book Chapter"
    else if k = "dissertation" then "Thesis"
    else if k = "report" then "Technical Report"
    else if k = "posted-content" then "Preprint"
    else if k = "preprint" then "Preprint"
    else "Journal Article"

/-- One author object of a CrossRef response (`item.author[i]`). -/
structure CrossRefAuthor where
  given : Option String
  family : Option String

/-- The fields of a CrossRef work item consumed by `searchCrossRef`
(lines 304–327). `published` models `item.published?.['date-parts']`. -/
structure CrossRefItem where
  title : List String
  author : Option (List CrossRefAuthor)
  published : Option (List (List Int))
  containerTitle : List String
  abstract : Option String
  DOI : Option String
  type : Option String

/-- The field mapping of `searchCrossRef` (lines 304–327) applied to the
top result.  `year` is
`item.published?.['date-parts']?.[0]?.[0] || new Date().getFullYear()`. -/
def crossRefToRecord (item : CrossRefItem) (currentYear : Int) : AcademicRecord where
  title := (item.title.head?).getD ""
  authors :=
    (match item.author with
     | some as =>
       as.map (fun (a : CrossRefAuthor) =>
         let given := a.given.getD ""
         let family := a.family.getD ""
         if family ≠ "" then jsTrim (family ++ ", " ++ given) else given)
     | none => []).filter (fun s => s ≠ "")
  year := some (jsOrI ((item.published.bind List.head?).bind List.head?) currentYear)
  journal := (item.containerTitle.head?).getD ""
  abstract := jsOrS (cleanAbstractS (item.abstract.getD "")) ""
  doi := item.DOI.getD ""
  type := item.type.getD "journal-article"
  source := "CrossRef"

/-- The fields of an OpenAlex work consumed by `searchOpenAlex`
(lines 365–388).  `authorships` holds `a.author?.display_name`;
`journalName` is the flattened `primary_location?.source?.display_name`
chain; `abstractInvertedIndex` is the word → positions mapping. -/
structure OpenAlexWork where
  title : Option String
  authorships : Option (List (Option String))
  publicationYear : Option Int
  journalName : Option String
  abstractInvertedIndex : Option (List (String × List Nat))
  doi : Option String
  type : Option String

/-- Assignment `words[pos] = word` on a JavaScript array: set, growing the array with
holes when the index is out of range. -/
def setSlot (l : List (Option String)) (pos : Nat) (w : String) : List (Option String) :=
  if pos < l.length then l.set pos (some w)
  else l ++ List.replicate (pos - l.length) none ++ [some w]

/-- Model of `reconstructAbstract` (lines 455–468): place every word at each of its
positions (later entries overwrite earlier ones), join the non-empty slots
with single spaces, truncate to 1000 characters. -/
def reconstructAbstract (idx : List (String × List Nat)) : String :=
  let slots := idx.foldl (fun acc e => e.2.foldl (fun a p => setSlot a p e.1) acc) []
  (" ".intercalate (slots.filterMap id)).take 1000

/-- The field mapping of `searchOpenAlex` (lines 365–388) applied to the
top result.  `doi` is `item.doi?.replace('https://doi.org/', '') || ''`
(a non-global replace: first occurrence only). -/
def openAlexToRecord (item : OpenAlexWork) (currentYear : Int) : AcademicRecord where
  title := item.title.getD ""
  authors := (match item.authorships with
    | some as => as.map (fun (a : Option String) => a.getD "")
    | none => []).filter (fun s => s ≠ "")
  year := some (jsOrI item.publicationYear currentYear)
  journal := item.journalName.getD ""
  abstract :=
    match item.abstractInvertedIndex with
    | some idx => cleanAbstractS (reconstructAbstract idx)
    | none => ""
  doi :=
    match item.doi with
    | some d => (replaceFirstStr "https://doi.org/".toList [] d.data).asString
    | none => ""
  type := item.type.getD "article"
  source := "OpenAlex"

/-- The fields of a Semantic Scholar paper consumed by
`searchSemanticScholar` (lines 422–440). -/
structure SemanticScholarPaper where
  title : Option String
  authorNames : Option (List (Option String))
  year : Option Int
  publicationVenueName : Option String
  venue : Option String
  abstract : Option String
  externalDOI : Option String
  publicationTypes : Option (List String)

/-- The field mapping of `searchSemanticScholar` (lines 422–440) applied
to the top result. -/
def semanticScholarToRecord (item : SemanticScholarPaper) (currentYear : Int) : AcademicRecord where
  title := item.title.getD ""
  authors := (match item.authorNames with
    | some as => as.map (fun (a : Option String) => a.getD "")
    | none => []).filter (fun s => s ≠ "")
  year := some (jsOrI item.year currentYear)
  journal := jsOrS (item.publicationVenueName.getD "") (jsOrS (item.venue.getD "") "")
  abstract := jsOrS (cleanAbstractS (item.abstract.getD "")) ""
  doi := item.externalDOI.getD ""
  type := (item.publicationTypes.bind List.head?).getD "article"
  source := "Semantic Scholar"

/-! ### The academic search orchestrator (`searchAcademicDatabases`,
lines 476–507).  The three network adapters are passed as parameters
(`String → Option AcademicRecord`: an adapter fails softly, returning
`none`, on any network error, non-2xx response or empty result set); the
second component of the result records which adapters were invoked, in
order — the instrumentation needed to state the short-circuit claims. -/

def searchAcademicDatabasesI
    (searchCrossRef searchOpenAlex searchSemanticScholar : String → Option AcademicRecord)
    (title : String) : Option AcademicRecord × List String :=
  -- `if (!title || title.trim().length < 10) return null`
  if (jsTrim title).length < 10 then (none, [])
  else
    match searchCrossRef title with
    | some result => (some result, ["CrossRef"])
    | none =>
      match searchOpenAlex title with
      | some result => (some result, ["CrossRef", "OpenAlex"])
      | none =>
        match searchSemanticScholar title with
        | some result => (some result, ["CrossRef", "OpenAlex", "Semantic Scholar"])
        | none => (none, ["CrossRef", "OpenAlex", "Semantic Scholar"])

/-! ### The merge step and top-level pipeline (`extractPDFMetadata`,
pdfMetadata.js lines 18–108) -/

/-- The final merged record built at lines 79–89. -/
structure MergedRecord where
  title : String
  authors : List String
  year : Int
  abstract : String
  doi : String
  journal : String
  type : String
  source : String
  journalRanking : Option String
deriving Repr, DecidableEq

/-- The merge of lines 79–89: every field prefers the academic value when
truthy (JavaScript `||`, and `?.length > 0` for authors), falling back to
the PDF-extracted value; `journal` is the `journalName` of line 68. -/
def mergeAcademicWithPdf (academicData : AcademicRecord) (pdfExtractedData : PdfRecord)
    (journalRankingTag : Option String) : MergedRecord where
  title := jsOrS academicData.title pdfExtractedData.title
  authors :=
    if academicData.authors.length > 0 then academicData.authors
    else pdfExtractedData.authors
  year := jsOrI academicData.year pdfExtractedData.year
  abstract := jsOrS academicData.abstract pdfExtractedData.abstract
  doi := jsOrS academicData.doi pdfExtractedData.doi
  journal := jsOrS academicData.journal pdfExtractedData.journal
  type := mapPublicationType (some academicData.type)
  source := academicData.source
  journalRanking := journalRankingTag

/-- The document data produced by steps 1–2 of the pipeline (PDF.js reads:
embedded metadata and the text of the first pages). -/
structure RawDoc where
  metadataTitle : Option String
  metadataAuthor : Option String
  creationDate : Option String
  fullText : String

/-- The two result shapes of `extractPDFMetadata`: the bare PDF-heuristic
record (lines 95 and 99–106) or the merged record of lines 79–89. -/
inductive ExtractResult where
  | pdfOnly (r : PdfRecord)
  | merged (r : MergedRecord)
deriving Repr, DecidableEq

/-- Model of `extractPDFMetadata` (lines 18–108).  The suspending reads of steps 1–2
are modelled by `readResult`: `Except.error` is a raised exception during
document reading or text extraction, caught by the top-level
`try`/`catch`, which returns the fully-default record of lines 99–106.
The text-heuristics extractor (lines 48–55, a pure function of the
document) and the journal-ranking resolver are passed as parameters; the
claims proved below hold for every such extractor.  The three lookup
adapters are the parameters of `searchAcademicDatabasesI`. -/
def extractPDFMetadataE (readResult : Except String RawDoc)
    (heuristics : RawDoc → PdfRecord)
    (searchCrossRef searchOpenAlex searchSemanticScholar : String → Option AcademicRecord)
    (getJournalRankingTag : String → Option String)
    (currentYear : Int) : ExtractResult :=
  match readResult with
  | .error _ =>
    .pdfOnly { title := "", authors := [], year := currentYear,
               abstract := "", doi := "", journal := "" }
  | .ok doc =>
    let pdfExtractedData := heuristics doc
    -- `if (pdfExtractedData.title && pdfExtractedData.title.length > 10)`
    if pdfExtractedData.title ≠ "" ∧ pdfExtractedData.title.length > 10 then
      match (searchAcademicDatabasesI searchCrossRef searchOpenAlex searchSemanticScholar
          pdfExtractedData.title).1 with
      | some academicData =>
        let journalName := jsOrS academicData.journal pdfExtractedData.journal
        -- `if (journalName && journalName.trim().length > 0)`
        let journalRankingTag :=
          if journalName ≠ "" ∧ (jsTrim journalName).length > 0 then
            getJournalRankingTag journalName
          else none
        .merged (mergeAcademicWithPdf academicData pdfExtractedData journalRankingTag)
      | none => .pdfOnly pdfExtractedData
    else .pdfOnly pdfExtractedData

/-! ### Journal ranking from OpenAlex
(`getJournalRankingFromOpenAlex`, journal-ranking module lines 539–598) -/

/-- The `summary_stats` object of an OpenAlex source. -/
structure SummaryStats where
  twoYrMeanCitedness : Option ℚ
  hIndex : Option ℚ

/-- The fields of an OpenAlex source consumed by the ranking lookup. -/
structure OpenAlexSource where
  summaryStats : Option SummaryStats
  worksCount : Option ℚ

/-- Comparison `worksCount > 100` on a possibly-absent JavaScript number: comparison
with `undefined` is false. -/
def jsGt (a : Option ℚ) (b : ℚ) : Bool :=
  match a with
  | some x => b < x
  | none => false

/-- The ranking logic of `getJournalRankingFromOpenAlex` (lines 558–591)
applied to the top matching source: use the 2-year mean citedness only
when it is present and the works count exceeds 100; otherwise fall back to
the h-index when present; otherwise no ranking. -/
def rankFromOpenAlexSource (journal : OpenAlexSource) : Option String :=
  let fromCitedness : Option String :=
    match journal.summaryStats with
    | some summaryStats =>
      match summaryStats.twoYrMeanCitedness with
      | some citedness =>
        if jsGt journal.worksCount 100 then
          some (if citedness ≥ 3 then "Q1"
                else if citedness ≥ 1.5 then "Q2"
                else if citedness ≥ 0.5 then "Q3"
                else "Q4")
        else none
      | none => none
    | none => none
  match fromCitedness with
  | some q => some q
  | none =>
    match (journal.summaryStats.bind SummaryStats.hIndex) with
    | some hIndex =>
      some (if hIndex ≥ 100 then "Q1"
            else if hIndex ≥ 50 then "Q2"
            else if hIndex ≥ 20 then "Q3"
            else "Q4")
    | none => none

/-! ### The AI summarizer's multi-model fallback
(`analyzePaperWithCerebras`, cerebrasService.js lines 7–128) -/

/-- The fixed ordered list of model identifiers (lines 39–43). -/
def cerebrasModels : List String := ["llama-3.3-70b", "llama3.1-70b", "llama3.1-8b"]

/-- The parts of a chat-completion HTTP response the function reads:
the status code, `errorData.error?.message` (for non-ok responses),
`response.statusText`, and `data.choices?.[0]?.message?.content`. -/
structure CerebrasResponse where
  status : Nat
  errorMessage : Option String
  statusText : String
  content : Option String

/-- The environment of one run: the response obtained for each model name,
and whether `JSON.parse` succeeds on a given extracted block. -/
structure CerebrasEnv where
  fetch : String → CerebrasResponse
  parseOk : String → Bool

/-- JavaScript `response.ok`: status in the 2xx range. -/
def responseOk (status : Nat) : Bool := 200 ≤ status && status ≤ 299

/-- The extraction `responseText.match(/\{[\s\S]*\}/)`: the leftmost-longest match runs
from the first `{` to the last `}` of the text, provided that `}` comes
after that `{`. -/
def extractJsonBlock (s : List Char) : Option (List Char) :=
  let fromBrace := s.dropWhile (fun c => c ≠ '\x7b')
  let inner := (fromBrace.reverse.dropWhile (fun c => c ≠ '\x7d')).reverse
  match inner with
  | '\x7b' :: _ => if inner.length ≥ 2 then some inner else none
  | _ => none

/-- String-level wrapper. -/
def extractJsonBlockS (s : String) : Option String :=
  (extractJsonBlock s.data).map List.asString

/-- Outcome of the `try` body for one model (lines 48–114), after the
`catch` of lines 115–123 has classified any thrown error:
`success` returns from the function, `fatal` is rethrown because its
message contains "API Key Invalid" (line 120), `skip` moves on to the next
model with `lastError` updated. -/
inductive ModelOutcome where
  | success (json : String)
  | skip (err : String)
  | fatal (err : String)

/-- JavaScript `String.prototype.includes`: does `pat` occur in the
text? -/
def strIncludes (pat : List Char) : List Char → Bool
  | [] => pat.isEmpty
  | c :: rest => pat.isPrefixOf (c :: rest) || strIncludes pat rest

/-- The check `error.message.includes("API Key Invalid")`. -/
def includesApiKeyInvalid (msg : String) : Bool :=
  strIncludes "API Key Invalid".data msg.data

/-- Classify a thrown error the way the `catch` block does: rethrow
(fatal) iff the message contains "API Key Invalid". -/
def classifyThrown (msg : String) : ModelOutcome :=
  if includesApiKeyInvalid msg then .fatal msg else .skip msg

/-- The `try` body for one model (lines 48–114): non-ok responses with
status 400/404 `continue` (skip); 401 throws the "API Key Invalid" error
(rethrown by the catch); any other non-ok status throws "API Error"; an ok
response with no content, no JSON block, or unparsable JSON throws; a
parsed block is returned. -/
def attemptModel (env : CerebrasEnv) (modelName : String) : ModelOutcome :=
  let r := env.fetch modelName
  if !(responseOk r.status) then
    if r.status = 404 || r.status = 400 then
      .skip ("Model " ++ modelName ++ " not available")
    else if r.status = 401 then
      classifyThrown ("API Key Invalid: " ++
        (r.errorMessage.getD "Check your Cerebras API key in Settings"))
    else
      classifyThrown ("API Error " ++ toString r.status ++ ": " ++
        (r.errorMessage.getD r.statusText))
  else
    match r.content with
    | none => classifyThrown "Empty response from Cerebras"
    | some responseText =>
      match extractJsonBlockS responseText with
      | none => classifyThrown "No JSON object found in Cerebras response"
      | some cleanText =>
        if env.parseOk cleanText then .success cleanText
        else classifyThrown "Unexpected token in JSON"

/-- The `for` loop of lines 47–124 plus the final throw of line 127.  The
second component lists the models actually attempted (fetched), in order:
the instrumentation needed to state the short-circuit claim. -/
def tryCerebrasModels (env : CerebrasEnv) :
    List String → Option String → Except String String × List String
  | [], lastError? =>
    (.error ("Failed to analyze paper with any Cerebras model. Last error: " ++
      (lastError?.getD "undefined")), [])
  | m :: rest, _lastError =>
    match attemptModel env m with
    | .success j => (.ok j, [m])
    | .skip e =>
      let r := tryCerebrasModels env rest (some e)
      (r.1, m :: r.2)
    | .fatal e => (.error e, [m])

/-- Model of `analyzePaperWithCerebras` (lines 7–128): the missing-key guard of
lines 8–10, then the model-fallback loop.  The prompt construction does
not influence control flow and is not modelled. -/
def analyzePaperWithCerebras (env : CerebrasEnv) (apiKey : String) :
    Except String String × List String :=
  if apiKey = "" then (.error "API Key is required", [])
  else tryCerebrasModels env cerebrasModels none

/-- Analysis predicates for the idempotence development around
`cleanAbstract`: `startsTagB l` says a match of the generic tag pattern
of the third removal pass begins at the head of `l`; `hasTagB` says one
begins somewhere; `headNotWS` and `isoWS` describe the canonical
whitespace form produced by the collapse pass (every whitespace character
is a single space with a non-whitespace, or no, successor). -/
def startsTagB : List Char → Bool
  | c :: a :: rest => (c = '<') && (a ≠ '>') && (decide ('>' ∈ a :: rest))
  | _ => false

def hasTagB : List Char → Bool
  | [] => false
  | c :: rest => startsTagB (c :: rest) || hasTagB rest

def headNotWS : List Char → Bool
  | [] => true
  | d :: _ => !(isWS d)

def isoWS : List Char → Bool
  | [] => true
  | c :: rest => (if isWS c then (c = ' ') && headNotWS rest else true) && isoWS rest

/-! ## Claims -/

/-- C1: In `extractPDFMetadata`, when the academic search returns a hit,
the final merged record takes, for every field, the academic hit's value
when it is present and non-empty (truthy, and non-empty for the author
list) and otherwise falls back to the PDF-extracted value; in particular,
for `pdfGuess` with title "T", year 2020, empty doi and `academicHit` with
title "T2", absent year, doi "10.1/x", the final record has title "T2",
year 2020, and doi "10.1/x". -/
theorem merge_prefers_academic_fields :
    (∀ (a : AcademicRecord) (p : PdfRecord) (t : Option String),
      ((mergeAcademicWithPdf a p t).title = if a.title = "" then p.title else a.title) ∧
      ((mergeAcademicWithPdf a p t).abstract =
        if a.abstract = "" then p.abstract else a.abstract) ∧
      ((mergeAcademicWithPdf a p t).doi = if a.doi = "" then p.doi else a.doi) ∧
      ((mergeAcademicWithPdf a p t).journal = if a.journal = "" then p.journal else a.journal) ∧
      ((mergeAcademicWithPdf a p t).authors = if a.authors = [] then p.authors else a.authors) ∧
      (∀ y : Int, a.year = some y → y ≠ 0 → (mergeAcademicWithPdf a p t).year = y) ∧
      (a.year = none → (mergeAcademicWithPdf a p t).year = p.year) ∧
      ((mergeAcademicWithPdf a p t).type = mapPublicationType (some a.type)) ∧
      ((mergeAcademicWithPdf a p t).source = a.source) ∧
      ((mergeAcademicWithPdf a p t).journalRanking = t)) ∧
    ((mergeAcademicWithPdf
        { title := "T2", authors := [], year := none, journal := "", abstract := "",
          doi := "10.1/x", type := "article", source := "CrossRef" }
        { title := "T", authors := [], year := 2020, abstract := "", doi := "", journal := "" }
        none) =
      { title := "T2", authors := [], year := 2020, abstract := "", doi := "10.1/x",
        journal := "", type := "Journal Article", source := "CrossRef",
        journalRanking := none }) := by
  constructor
  · intro a p t
    refine ⟨rfl, rfl, rfl, rfl, ?_, ?_, ?_, rfl, rfl, rfl⟩
    · by_cases h : a.authors = []
      · simp [mergeAcademicWithPdf, h]
      · have hlen : a.authors.length > 0 := by
          cases ha : a.authors with
          | nil => exact absurd ha h
          | cons x xs => simp [ha]
        simp [mergeAcademicWithPdf, hlen, h]
    · intro y hy hy0
      simp [mergeAcademicWithPdf, jsOrI, hy, hy0]
    · intro hy
      simp [mergeAcademicWithPdf, jsOrI, hy]
  · decide

/-- Witness for `merge_prefers_academic_fields`: the year clause applied at
a concrete non-zero academic year. -/
theorem merge_prefers_academic_fields_witness :
    (mergeAcademicWithPdf
      { title := "A", authors := ["x"], year := some 1999, journal := "J", abstract := "s",
        doi := "10.1234/d", type := "article", source := "CrossRef" }
      { title := "P", authors := [], year := 2000, abstract := "", doi := "", journal := "" }
      none).year = 1999 :=
  ((merge_prefers_academic_fields.1 _ _ _).2.2.2.2.2.1) 1999 rfl (by decide)

/-- C2: `extractPDFMetadata` is total: any exception raised during document
reading or text extraction is caught at the top level and the function
returns the fully-default record (empty title, empty author list, current
year, empty abstract, empty doi, empty journal); no error escapes (the
result type `ExtractResult` is error-free, and every run produces either a
PDF-heuristic record or a merged record). -/
theorem extractPDFMetadata_total :
    (∀ (e : String) (heur : RawDoc → PdfRecord)
        (cr oa ss : String → Option AcademicRecord)
        (rank : String → Option String) (cy : Int),
      extractPDFMetadataE (.error e) heur cr oa ss rank cy =
        .pdfOnly { title := "", authors := [], year := cy,
                   abstract := "", doi := "", journal := "" }) ∧
    (∀ (read : Except String RawDoc) (heur : RawDoc → PdfRecord)
        (cr oa ss : String → Option AcademicRecord)
        (rank : String → Option String) (cy : Int),
      (∃ r, extractPDFMetadataE read heur cr oa ss rank cy = .pdfOnly r) ∨
      (∃ r, extractPDFMetadataE read heur cr oa ss rank cy = .merged r)) := by
  constructor
  · intro e heur cr oa ss rank cy
    rfl
  · intro read heur cr oa ss rank cy
    cases h : extractPDFMetadataE read heur cr oa ss rank cy with
    | pdfOnly r => exact Or.inl ⟨r, rfl⟩
    | merged r => exact Or.inr ⟨r, rfl⟩

/-- C3: `searchAcademicDatabases` returns absence without invoking any
adapter when the trimmed title is shorter than 10 characters; otherwise it
invokes the adapters sequentially in the order CrossRef, OpenAlex,
Semantic Scholar, returns the first non-absent result, and invokes no
adapter after the one that produced it (the second component lists the
adapters invoked, in order). -/
theorem searchAcademicDatabases_short_circuit :
    ∀ (cr oa ss : String → Option AcademicRecord) (title : String),
      ((jsTrim title).length < 10 →
        searchAcademicDatabasesI cr oa ss title = (none, [])) ∧
      (¬ (jsTrim title).length < 10 →
        (∀ r, cr title = some r →
          searchAcademicDatabasesI cr oa ss title = (some r, ["CrossRef"])) ∧
        (cr title = none → ∀ r, oa title = some r →
          searchAcademicDatabasesI cr oa ss title = (some r, ["CrossRef", "OpenAlex"])) ∧
        (cr title = none → oa title = none → ∀ r, ss title = some r →
          searchAcademicDatabasesI cr oa ss title =
            (some r, ["CrossRef", "OpenAlex", "Semantic Scholar"])) ∧
        (cr title = none → oa title = none → ss title = none →
          searchAcademicDatabasesI cr oa ss title =
            (none, ["CrossRef", "OpenAlex", "Semantic Scholar"]))) := by
  intro cr oa ss title
  constructor
  · intro h
    simp [searchAcademicDatabasesI, h]
  · intro h
    refine ⟨?_, ?_, ?_, ?_⟩
    · intro r hr
      simp [searchAcademicDatabasesI, h, hr]
    · intro hcr r hr
      simp [searchAcademicDatabasesI, h, hcr, hr]
    · intro hcr hoa r hr
      simp [searchAcademicDatabasesI, h, hcr, hoa, hr]
    · intro hcr hoa hss
      simp [searchAcademicDatabasesI, h, hcr, hoa, hss]

/-- Witness for `searchAcademicDatabases_short_circuit`: the title "ab"
(trimmed length 2) produces absence with no adapter invoked. -/
theorem searchAcademicDatabases_short_circuit_witness :
    searchAcademicDatabasesI (fun _ => none) (fun _ => none) (fun _ => none) "ab" = (none, []) :=
  (searchAcademicDatabases_short_circuit (fun _ => none) (fun _ => none) (fun _ => none) "ab").1
    (by decide)

/-- C6: the bibliometric ranking lookup uses the 2-year mean citedness only
when the source's works count exceeds 100 (thresholds 3.0/1.5/0.5 for
Q1/Q2/Q3, else Q4); when the citedness cannot be used but an h-index is
present it maps the h-index with thresholds 100/50/20; in particular
citedness 3.0 with works count 150 yields Q1, and with works count 50 the
citedness is ignored. -/
theorem ranking_thresholds :
    (∀ (j : OpenAlexSource) (s : SummaryStats) (c w : ℚ),
      j.summaryStats = some s → s.twoYrMeanCitedness = some c →
      j.worksCount = some w → 100 < w →
      rankFromOpenAlexSource j =
        some (if c ≥ 3 then "Q1" else if c ≥ 1.5 then "Q2"
              else if c ≥ 0.5 then "Q3" else "Q4")) ∧
    (∀ (j : OpenAlexSource) (s : SummaryStats) (h : ℚ),
      j.summaryStats = some s →
      (s.twoYrMeanCitedness = none ∨ jsGt j.worksCount 100 = false) →
      s.hIndex = some h →
      rankFromOpenAlexSource j =
        some (if h ≥ 100 then "Q1" else if h ≥ 50 then "Q2"
              else if h ≥ 20 then "Q3" else "Q4")) ∧
    (∀ (s s' : SummaryStats) (wc : Option ℚ),
      jsGt wc 100 = false → s.hIndex = s'.hIndex →
      rankFromOpenAlexSource ⟨some s, wc⟩ = rankFromOpenAlexSource ⟨some s', wc⟩) ∧
    (rankFromOpenAlexSource ⟨some ⟨some 3, none⟩, some 150⟩ = some "Q1") ∧
    (rankFromOpenAlexSource ⟨some ⟨some 3, some 60⟩, some 50⟩ = some "Q2") := by
  refine ⟨?_, ?_, ?_, ?_, ?_⟩
  · intro j s c w hs hc hw hgt
    have : jsGt j.worksCount 100 = true := by simp [jsGt, hw, hgt]
    simp [rankFromOpenAlexSource, hs, hc, this]
  · intro j s h hs hcw hh
    cases hcw with
    | inl hc => simp [rankFromOpenAlexSource, hs, hc, hh]
    | inr hw =>
      cases hc : s.twoYrMeanCitedness with
      | none => simp [rankFromOpenAlexSource, hs, hc, hh]
      | some c => simp [rankFromOpenAlexSource, hs, hc, hw, hh]
  · intro s s' wc hw hh
    cases hc : s.twoYrMeanCitedness with
    | none =>
      cases hc' : s'.twoYrMeanCitedness with
      | none => simp [rankFromOpenAlexSource, hc, hc', hh]
      | some c' => simp [rankFromOpenAlexSource, hc, hc', hw, hh]
    | some c =>
      cases hc' : s'.twoYrMeanCitedness with
      | none => simp [rankFromOpenAlexSource, hc, hc', hw, hh]
      | some c' => simp [rankFromOpenAlexSource, hc, hc', hw, hh]
  · norm_num [rankFromOpenAlexSource, jsGt]
  · norm_num [rankFromOpenAlexSource, jsGt]

/-- Witness for `ranking_thresholds`: the citedness clause applied at
citedness 3.0, works count 150. -/
theorem ranking_thresholds_witness :
    rankFromOpenAlexSource ⟨some ⟨some 3, none⟩, some 150⟩ = some "Q1" := by
  have := ranking_thresholds.1 ⟨some ⟨some 3, none⟩, some 150⟩ ⟨some 3, none⟩ 3 150
    rfl rfl rfl (by norm_num)
  simpa using this

/-- C10: every record returned by the CrossRef, OpenAlex or Semantic
Scholar title-search adapter has a present, non-zero year (the current
year is substituted when the remote response omits one), so the merge
step's year fallback to the PDF-extracted year is never taken for a hit
from these adapters. -/
theorem adapter_year_always_present :
    ∀ cy : Int, cy ≠ 0 →
      (∀ item : CrossRefItem, ∃ v, (crossRefToRecord item cy).year = some v ∧ v ≠ 0 ∧
        ∀ (p : PdfRecord) (t : Option String),
          (mergeAcademicWithPdf (crossRefToRecord item cy) p t).year = v) ∧
      (∀ item : OpenAlexWork, ∃ v, (openAlexToRecord item cy).year = some v ∧ v ≠ 0 ∧
        ∀ (p : PdfRecord) (t : Option String),
          (mergeAcademicWithPdf (openAlexToRecord item cy) p t).year = v) ∧
      (∀ item : SemanticScholarPaper, ∃ v,
        (semanticScholarToRecord item cy).year = some v ∧ v ≠ 0 ∧
        ∀ (p : PdfRecord) (t : Option String),
          (mergeAcademicWithPdf (semanticScholarToRecord item cy) p t).year = v) := by
  intro cy hcy
  have key : ∀ a : Option Int, jsOrI a cy ≠ 0 := by
    intro a
    cases a with
    | none => simpa [jsOrI] using hcy
    | some n =>
      by_cases h : n = 0
      · simpa [jsOrI, h] using hcy
      · simp [jsOrI, h]
  refine ⟨?_, ?_, ?_⟩
  · intro item
    refine ⟨jsOrI ((item.published.bind List.head?).bind List.head?) cy, rfl, key _, ?_⟩
    intro p t
    simp [mergeAcademicWithPdf, crossRefToRecord, jsOrI, key _]
    intro h0
    exact absurd h0 (by simpa [jsOrI] using key ((item.published.bind List.head?).bind List.head?))
  · intro item
    refine ⟨jsOrI item.publicationYear cy, rfl, key _, ?_⟩
    intro p t
    simp [mergeAcademicWithPdf, openAlexToRecord, jsOrI, key _]
    intro h0
    exact absurd h0 (by simpa [jsOrI] using key item.publicationYear)
  · intro item
    refine ⟨jsOrI item.year cy, rfl, key _, ?_⟩
    intro p t
    simp [mergeAcademicWithPdf, semanticScholarToRecord, jsOrI, key _]
    intro h0
    exact absurd h0 (by simpa [jsOrI] using key item.year)

/-- Witness for `adapter_year_always_present`: a Semantic Scholar response
with no year, at current year 2024, yields year 2024 in the merge. -/
theorem adapter_year_always_present_witness :
    ∃ v, (semanticScholarToRecord ⟨none, none, none, none, none, none, none, none⟩ 2024).year
      = some v ∧ v ≠ 0 ∧
      ∀ (p : PdfRecord) (t : Option String),
        (mergeAcademicWithPdf (semanticScholarToRecord
          ⟨none, none, none, none, none, none, none, none⟩ 2024) p t).year = v :=
  (adapter_year_always_present 2024 (by decide)).2.2 ⟨none, none, none, none, none, none, none, none⟩

/-- Any string starting with "API Key Invalid: " contains
"API Key Invalid". -/
theorem isPrefixOf_append_self : ∀ p t : List Char, p.isPrefixOf (p ++ t) = true := by
  intro p
  induction p with
  | nil => intro t; simp [List.isPrefixOf]
  | cons a q ih => intro t; simp [List.isPrefixOf, ih t]

theorem strIncludes_append_self :
    ∀ (pat t : List Char), pat ≠ [] → strIncludes pat (pat ++ t) = true := by
  intro pat t hne
  cases pat with
  | nil => exact absurd rfl hne
  | cons c q =>
    rw [List.cons_append]
    unfold strIncludes
    rw [← List.cons_append, isPrefixOf_append_self]
    rfl

theorem isPrefixOf_to_append : ∀ p l : List Char, p.isPrefixOf l = true → ∃ t, p ++ t = l := by
  intro p
  induction p with
  | nil => exact fun l _ => ⟨l, rfl⟩
  | cons a q ih =>
    intro l h
    cases l with
    | nil => exact absurd h (by simp [List.isPrefixOf])
    | cons b bs =>
      simp only [List.isPrefixOf, Bool.and_eq_true, beq_iff_eq] at h
      obtain ⟨rfl, h2⟩ := h
      obtain ⟨t, ht⟩ := ih bs h2
      exact ⟨t, by rw [List.cons_append, ht]⟩

theorem includesApiKeyInvalid_of_prefixed (t : String) :
    includesApiKeyInvalid ("API Key Invalid: " ++ t) = true := by
  have hsplit : ("API Key Invalid: " ++ t).data =
      "API Key Invalid".data ++ (':' :: ' ' :: t.data) := by
    cases t with
    | mk data => rfl
  unfold includesApiKeyInvalid
  rw [hsplit]
  exact strIncludes_append_self _ _ (by simp)

/-- C9: the AI summarizer tries its fixed model list in order; on an HTTP
400 or 404 response from a model it skips to the next model (the model is
recorded as attempted and the loop continues on the remaining list); on an
HTTP 401 response it aborts immediately with the "API Key Invalid" error,
attempting no further model. -/
theorem cerebras_model_fallback :
    (∀ (env : CerebrasEnv) (m : String) (rest : List String) (le : Option String),
      ((env.fetch m).status = 400 ∨ (env.fetch m).status = 404) →
      tryCerebrasModels env (m :: rest) le =
        ((tryCerebrasModels env rest (some ("Model " ++ m ++ " not available"))).1,
         m :: (tryCerebrasModels env rest (some ("Model " ++ m ++ " not available"))).2)) ∧
    (∀ (env : CerebrasEnv) (m : String) (rest : List String) (le : Option String),
      (env.fetch m).status = 401 →
      tryCerebrasModels env (m :: rest) le =
        (.error ("API Key Invalid: " ++
          ((env.fetch m).errorMessage.getD "Check your Cerebras API key in Settings")), [m])) ∧
    (cerebrasModels = ["llama-3.3-70b", "llama3.1-70b", "llama3.1-8b"]) := by
  refine ⟨?_, ?_, rfl⟩
  · intro env m rest le h
    rcases h with h | h <;>
      simp [tryCerebrasModels, attemptModel, responseOk, h]
  · intro env m rest le h
    simp [tryCerebrasModels, attemptModel, responseOk, h, classifyThrown,
      includesApiKeyInvalid_of_prefixed]

/-- Witness for `cerebras_model_fallback`: a run whose first model answers
404 and whose second answers 401 attempts exactly the first two models and
surfaces the invalid-credential error. -/
theorem cerebras_model_fallback_witness :
    analyzePaperWithCerebras
      { fetch := fun m => if m = "llama-3.3-70b" then ⟨404, none, "Not Found", none⟩
          else ⟨401, some "bad key", "Unauthorized", none⟩,
        parseOk := fun _ => true } "sk-1" =
      (.error ("API Key Invalid: " ++ "bad key"), ["llama-3.3-70b", "llama3.1-70b"]) := by
  have h404 := cerebras_model_fallback.1
    { fetch := fun m => if m = "llama-3.3-70b" then ⟨404, none, "Not Found", none⟩
        else ⟨401, some "bad key", "Unauthorized", none⟩,
      parseOk := fun _ => true }
    "llama-3.3-70b" ["llama3.1-70b", "llama3.1-8b"] none (Or.inr (by decide))
  have h401 := cerebras_model_fallback.2.1
    { fetch := fun m => if m = "llama-3.3-70b" then ⟨404, none, "Not Found", none⟩
        else ⟨401, some "bad key", "Unauthorized", none⟩,
      parseOk := fun _ => true }
    "llama3.1-70b" ["llama3.1-8b"] (some ("Model " ++ "llama-3.3-70b" ++ " not available"))
    (by decide)
  have hstart : analyzePaperWithCerebras
      { fetch := fun m => if m = "llama-3.3-70b" then ⟨404, none, "Not Found", none⟩
          else ⟨401, some "bad key", "Unauthorized", none⟩,
        parseOk := fun _ => true } "sk-1" =
      tryCerebrasModels
        { fetch := fun m => if m = "llama-3.3-70b" then ⟨404, none, "Not Found", none⟩
            else ⟨401, some "bad key", "Unauthorized", none⟩,
          parseOk := fun _ => true }
        ("llama-3.3-70b" :: ["llama3.1-70b", "llama3.1-8b"]) none := by
    simp [analyzePaperWithCerebras, cerebrasModels]
  rw [hstart, h404, h401]
  simp

/-- C8: when the embedded creation-date string yields no valid year, the
year extractor scans the text for the year tokens, keeps those within
`[1900, currentYear + 1]`, and returns their maximum; with none it returns
the current year.  In particular, text containing 1995, 2010 and 2099 with
current year 2024 gives 2010. -/
theorem extractYear_takes_max_valid :
    (∀ (cd : Option (List Char)) (text : List Char) (cy : Nat),
      yearFromCreationDate cd cy = none →
      extractYear cd text cy = extractYearFromText text cy) ∧
    (∀ (text : List Char) (cy : Nat),
      ((scanYears text).filter (fun y => 1900 ≤ y && y ≤ cy + 1) = [] →
        extractYearFromText text cy = cy) ∧
      (∀ y ∈ (scanYears text).filter (fun y => 1900 ≤ y && y ≤ cy + 1),
        y ≤ extractYearFromText text cy) ∧
      ((scanYears text).filter (fun y => 1900 ≤ y && y ≤ cy + 1) ≠ [] →
        extractYearFromText text cy ∈
          (scanYears text).filter (fun y => 1900 ≤ y && y ≤ cy + 1))) ∧
    (extractYear none "In 1995 and 2010 and 2099".toList 2024 = 2010) := by
  refine ⟨?_, ?_, by decide⟩
  · intro cd text cy h
    unfold extractYear
    rw [h]
  · intro text cy
    set valid := (scanYears text).filter (fun y => 1900 ≤ y && y ≤ cy + 1) with hvalid
    have hperm : List.Perm (sortDesc valid) valid := List.perm_insertionSort _ valid
    have hsorted : List.Sorted (· ≥ ·) (sortDesc valid) := List.sorted_insertionSort _ valid
    refine ⟨?_, ?_, ?_⟩
    · intro h
      unfold extractYearFromText
      rw [← hvalid, h]
      rfl
    · intro y hy
      have hy' : y ∈ sortDesc valid := hperm.mem_iff.mpr hy
      unfold extractYearFromText
      rw [← hvalid]
      cases hs : sortDesc valid with
      | nil => exact absurd (hs ▸ hy') (List.not_mem_nil y)
      | cons a t =>
        rw [hs] at hy' hsorted
        rcases List.mem_cons.mp hy' with h | h
        · exact Nat.le_of_eq h
        · exact (List.sorted_cons.mp hsorted).1 y h
    · intro h
      unfold extractYearFromText
      rw [← hvalid]
      cases hs : sortDesc valid with
      | nil =>
        exact absurd (List.Perm.eq_nil (hs ▸ hperm).symm) h
      | cons a t =>
        exact hperm.mem_iff.mp (by rw [hs]; exact List.mem_cons_self a t)

/-- Witness for `extractYear_takes_max_valid`: the no-valid-year clause at
a concrete text. -/
theorem extractYear_takes_max_valid_witness :
    extractYear (some "D:99".toList) "only 2099 here".toList 2024 = 2024 := by
  have h1 := extractYear_takes_max_valid.1 (some "D:99".toList) "only 2099 here".toList 2024
    (by decide)
  have h2 := (extractYear_takes_max_valid.2.1 "only 2099 here".toList 2024).1 (by decide)
  rw [h1, h2]

/-- C7: `extractDOI` applies its four patterns in the fixed priority order
(`doi:` prefix, doi.org URL, `DOI:` prefix — the same case-insensitive
pattern as the first — then bare) and returns the first capturing-group
match with a trailing punctuation character stripped, or absence when no
pattern matches; in particular, for a text containing both a bare DOI and
a `doi:`-prefixed DOI with different values, the `doi:`-prefixed one is
returned. -/
theorem extractDOI_pattern_priority :
    (∀ (t m : List Char), findDoiPrefixed t = some m →
      extractDOIL t = some (stripTrailingPunct (trimWS m))) ∧
    (∀ (t m : List Char), findDoiPrefixed t = none → findDoiUrl t = some m →
      extractDOIL t = some (stripTrailingPunct (trimWS m))) ∧
    (∀ (t m : List Char), findDoiPrefixed t = none → findDoiUrl t = none →
      findDoiBare none t = some m →
      extractDOIL t = some (stripTrailingPunct (trimWS m))) ∧
    (∀ t : List Char, findDoiPrefixed t = none → findDoiUrl t = none →
      findDoiBare none t = none → extractDOIL t = none) ∧
    (extractDOIL "cite 10.9999/zzz and doi: 10.1234/abc".toList
      = some "10.1234/abc".toList) := by
  refine ⟨?_, ?_, ?_, ?_, by decide⟩
  · intro t m h
    simp [extractDOIL, h]
  · intro t m h1 h2
    simp [extractDOIL, h1, h2]
  · intro t m h1 h2 h3
    simp [extractDOIL, h1, h2, h3]
  · intro t h1 h2 h3
    simp [extractDOIL, h1, h2, h3]

/-- Witness for `extractDOI_pattern_priority`: the first-pattern clause at
a concrete text. -/
theorem extractDOI_pattern_priority_witness :
    extractDOIL "x doi: 10.1234/ab cd".toList
      = some (stripTrailingPunct (trimWS "10.1234/ab".toList)) :=
  extractDOI_pattern_priority.1 "x doi: 10.1234/ab cd".toList "10.1234/ab".toList (by decide)

/-- C5 counterexample: `extractDOI` strips only one trailing punctuation
character, so on "doi: 10.1234/abc.." it produces "10.1234/abc.", a doi
value that still ends with a punctuation character — contradicting the
claim that produced doi values carry no trailing punctuation. -/
theorem extractDOI_trailing_punct_counterexample :
    extractDOIL "doi: 10.1234/abc.. more".toList = some "10.1234/abc.".toList ∧
    ("10.1234/abc.".toList).getLast? = some '.' ∧ isPunctEnd '.' = true := by
  refine ⟨by decide, by decide, by decide⟩

theorem dropWhile_eq_self_of_all (p : Char → Bool) :
    ∀ l : List Char, (∀ c ∈ l, p c = false) → l.dropWhile p = l := by
  intro l h
  cases l with
  | nil => rfl
  | cons c rest => simp [List.dropWhile_cons, h c (List.mem_cons_self c rest)]

theorem trimWS_eq_self (l : List Char) (h : ∀ c ∈ l, isWS c = false) : trimWS l = l := by
  unfold trimWS
  rw [dropWhile_eq_self_of_all _ l h,
    dropWhile_eq_self_of_all _ l.reverse (fun c hc => h c (List.mem_reverse.mp hc)),
    List.reverse_reverse]

/-- A successful match of the capturing group has the form
`10.` + digits (≥ 4) + `/` + non-empty whitespace-free tail. -/
theorem tryDoiTail_shape (l g : List Char) (h : tryDoiTail l = some g) :
    ∃ ds ns, g = '1' :: '0' :: '.' :: (ds ++ '/' :: ns) ∧ 4 ≤ ds.length ∧
      (∀ c ∈ ds, c.isDigit = true) ∧ ns ≠ [] ∧ (∀ c ∈ ns, isWS c = false) := by
  unfold tryDoiTail at h
  split at h
  case h_1 rest =>
    dsimp only at h
    split at h
    case isTrue h4 =>
      split at h
      case h_1 rest3 heq =>
        split at h
        case isTrue => exact absurd h (by simp)
        case isFalse hne =>
          refine ⟨rest.takeWhile Char.isDigit, rest3.takeWhile (fun c => !(isWS c)),
            ?_, h4, ?_, hne, ?_⟩
          · injection h with h'
            exact h'.symm
          · intro c hc
            exact List.mem_takeWhile_imp hc
          · intro c hc
            have := List.mem_takeWhile_imp hc
            simpa using this
      case h_2 => exact absurd h (by simp)
    case isFalse => exact absurd h (by simp)
  case h_2 => exact absurd h (by simp)

theorem btbAux_sound :
    ∀ (l : List Char) (b : Bool) (r : List Char), btbAux l b = some r →
      r ≠ [] ∧ ∀ c ∈ r, c ∈ l := by
  intro l
  induction l with
  | nil => intro b r h; exact absurd h (by simp [btbAux])
  | cons c rest ih =>
    intro b r h
    unfold btbAux at h
    split at h
    · injection h with h'
      subst h'
      exact ⟨by simp, fun x hx => hx⟩
    · obtain ⟨hne, hsub⟩ := ih _ r h
      exact ⟨hne, fun x hx => List.mem_cons_of_mem c (hsub x hx)⟩

/-- Same shape for the bare pattern's group (its tail may have been
backtracked for the trailing `\b`, but stays non-empty and
whitespace-free). -/
theorem tryDoiTailBare_shape (l g : List Char) (h : tryDoiTailBare l = some g) :
    ∃ ds ns, g = '1' :: '0' :: '.' :: (ds ++ '/' :: ns) ∧ 4 ≤ ds.length ∧
      (∀ c ∈ ds, c.isDigit = true) ∧ ns ≠ [] ∧ (∀ c ∈ ns, isWS c = false) := by
  unfold tryDoiTailBare at h
  split at h
  case h_1 rest =>
    dsimp only at h
    split at h
    case isTrue h4 =>
      split at h
      case h_1 rest3 heq =>
        split at h
        case h_1 revNs hbt =>
          obtain ⟨hne, hsub⟩ := btbAux_sound _ _ _ hbt
          refine ⟨rest.takeWhile Char.isDigit, revNs.reverse, ?_, h4, ?_, ?_, ?_⟩
          · injection h with h'
            exact h'.symm
          · intro c hc
            exact List.mem_takeWhile_imp hc
          · simpa using hne
          · intro c hc
            have h1 : c ∈ revNs := List.mem_reverse.mp hc
            have h2 := hsub c h1
            have h3 := List.mem_takeWhile_imp (List.mem_reverse.mp h2)
            simpa using h3
        case h_2 => exact absurd h (by simp)
      case h_2 => exact absurd h (by simp)
    case isFalse => exact absurd h (by simp)
  case h_2 => exact absurd h (by simp)

theorem findDoiPrefixed_from_group :
    ∀ t m : List Char, findDoiPrefixed t = some m → ∃ l, tryDoiTail l = some m := by
  intro t
  induction t with
  | nil => intro m h; exact absurd h (by simp [findDoiPrefixed])
  | cons c rest ih =>
    intro m h
    unfold findDoiPrefixed at h
    split at h
    case h_1 after _ =>
      split at h
      case h_1 g hg =>
        injection h with h'
        exact ⟨_, h' ▸ hg⟩
      case h_2 => exact ih m h
    case h_2 => exact ih m h

theorem findDoiUrl_from_group :
    ∀ t m : List Char, findDoiUrl t = some m → ∃ l, tryDoiTail l = some m := by
  intro t
  induction t with
  | nil => intro m h; exact absurd h (by simp [findDoiUrl])
  | cons c rest ih =>
    intro m h
    unfold findDoiUrl at h
    dsimp only at h
    cases h1 : ciPrefix "https://doi.org/".toList (c :: rest) with
    | some after =>
      rw [h1] at h
      dsimp only at h
      cases h2 : tryDoiTail after with
      | some g =>
        rw [h2] at h
        injection h with h'
        exact ⟨after, h' ▸ h2⟩
      | none =>
        rw [h2] at h
        exact ih m h
    | none =>
      rw [h1] at h
      dsimp only at h
      cases h1' : ciPrefix "http://doi.org/".toList (c :: rest) with
      | some after =>
        rw [h1'] at h
        dsimp only at h
        cases h2 : tryDoiTail after with
        | some g =>
          rw [h2] at h
          injection h with h'
          exact ⟨after, h' ▸ h2⟩
        | none =>
          rw [h2] at h
          exact ih m h
      | none =>
        rw [h1'] at h
        exact ih m h

theorem findDoiBare_from_group :
    ∀ (t : List Char) (prev : Option Char) (m : List Char),
      findDoiBare prev t = some m → ∃ l, tryDoiTailBare l = some m := by
  intro t
  induction t with
  | nil => intro prev m h; exact absurd h (by simp [findDoiBare])
  | cons c rest ih =>
    intro prev m h
    unfold findDoiBare at h
    cases hb : leadingBoundaryOk prev with
    | true =>
      rw [hb] at h
      simp only [if_true] at h
      cases h2 : tryDoiTailBare (c :: rest) with
      | some g =>
        rw [h2] at h
        injection h with h'
        exact ⟨c :: rest, h' ▸ h2⟩
      | none =>
        rw [h2] at h
        exact ih _ m h
    | false =>
      rw [hb] at h
      simp only [Bool.false_eq_true, if_false] at h
      exact ih _ m h

/-- The function `stripTrailingPunct` keeps the `10.` start, the digit block and the
slash; it can only shorten the tail after the slash (possibly to empty). -/
theorem stripTrailingPunct_shape (ds ns : List Char) (hns : ns ≠ [])
    (hds4 : 4 ≤ ds.length) (hdsd : ∀ c ∈ ds, c.isDigit = true)
    (hnsw : ∀ c ∈ ns, isWS c = false) :
    ∃ ds' rest, stripTrailingPunct ('1' :: '0' :: '.' :: (ds ++ '/' :: ns)) =
        '1' :: '0' :: '.' :: (ds' ++ '/' :: rest) ∧ 4 ≤ ds'.length ∧
      (∀ c ∈ ds', c.isDigit = true) ∧ (∀ c ∈ rest, isWS c = false) := by
  unfold stripTrailingPunct
  split
  case h_1 c r hrev =>
    split
    case isTrue hc =>
      have hg : ('1' :: '0' :: '.' :: (ds ++ '/' :: ns)) = r.reverse ++ [c] := by
        have := congrArg List.reverse hrev
        simpa using this
      have hdrop : r.reverse = ('1' :: '0' :: '.' :: (ds ++ '/' :: ns)).dropLast := by
        rw [hg, List.dropLast_concat]
      refine ⟨ds, ns.dropLast, ?_, hds4, hdsd, ?_⟩
      · rw [hdrop]
        have h1 : ('/' :: ns) ≠ [] := by simp
        have h2 : (ds ++ '/' :: ns) ≠ [] := by simp
        rw [List.dropLast_cons_of_ne_nil (by simp),
          List.dropLast_cons_of_ne_nil (by simp),
          List.dropLast_cons_of_ne_nil h2,
          List.dropLast_append_of_ne_nil ds h1,
          List.dropLast_cons_of_ne_nil hns]
      · intro x hx
        exact hnsw x (List.dropLast_subset ns hx)
    case isFalse hc =>
      exact ⟨ds, ns, rfl, hds4, hdsd, hnsw⟩
  case h_2 hrev =>
    exact ⟨ds, ns, rfl, hds4, hdsd, hnsw⟩

/-- A digit character is not whitespace. -/
theorem isWS_false_of_digit (c : Char) (hd : c.isDigit = true) : isWS c = false := by
  cases hw : isWS c
  · rfl
  · exfalso
    simp only [isWS, Bool.or_eq_true, decide_eq_true_eq] at hw
    rcases hw with ((((h | h) | h) | h) | h) | h <;> (subst h; simp [Char.isDigit] at hd)

/-- The group matched by any of the four patterns contains no whitespace,
so the `.trim()` of line 143 is the identity on it. -/
theorem trimWS_group (ds ns : List Char)
    (hdsd : ∀ c ∈ ds, c.isDigit = true) (hnsw : ∀ c ∈ ns, isWS c = false) :
    trimWS ('1' :: '0' :: '.' :: (ds ++ '/' :: ns)) =
      '1' :: '0' :: '.' :: (ds ++ '/' :: ns) := by
  apply trimWS_eq_self
  intro c hc
  simp only [List.mem_cons, List.mem_append] at hc
  rcases hc with rfl | rfl | rfl | hc | rfl | hc
  · decide
  · decide
  · decide
  · exact isWS_false_of_digit c (hdsd c hc)
  · decide
  · exact hnsw c hc

theorem strip_group_shape (m d : List Char)
    (hshape : ∃ ds ns, m = '1' :: '0' :: '.' :: (ds ++ '/' :: ns) ∧ 4 ≤ ds.length ∧
      (∀ c ∈ ds, c.isDigit = true) ∧ ns ≠ [] ∧ (∀ c ∈ ns, isWS c = false))
    (hd : d = stripTrailingPunct (trimWS m)) :
    ∃ ds rest, d = '1' :: '0' :: '.' :: (ds ++ '/' :: rest) ∧ 4 ≤ ds.length ∧
      (∀ c ∈ ds, c.isDigit = true) ∧ (∀ c ∈ rest, isWS c = false) := by
  obtain ⟨ds, ns, rfl, h4, hdig, hne, hw⟩ := hshape
  rw [trimWS_group ds ns hdig hw] at hd
  obtain ⟨ds', rest, heq, h4', hdig', hw'⟩ := stripTrailingPunct_shape ds ns hne h4 hdig hw
  exact ⟨ds', rest, hd.trans heq, h4', hdig', hw'⟩

/-- C5 amended: every doi produced by `extractDOI`, when present, has the
form `10.` + (four or more digits) + `/` + a whitespace-free (possibly
empty) tail, with no URL prefix; a *single* trailing punctuation character
is stripped from the raw match, so the result can still end in punctuation
(and its tail after the slash can be empty).  The title-search adapters
pass the remote doi field through without validating this pattern
(OpenAlex stripping only a leading `https://doi.org/`). -/
theorem extractDOI_doi_shape :
    (∀ t d : List Char, extractDOIL t = some d →
      ∃ ds rest, d = '1' :: '0' :: '.' :: (ds ++ '/' :: rest) ∧ 4 ≤ ds.length ∧
        (∀ c ∈ ds, c.isDigit = true) ∧ (∀ c ∈ rest, isWS c = false)) ∧
    (∀ (item : CrossRefItem) (cy : Int), (crossRefToRecord item cy).doi = item.DOI.getD "") ∧
    (∀ (item : OpenAlexWork) (cy : Int) (d : String), item.doi = some d →
      (openAlexToRecord item cy).doi =
        (replaceFirstStr "https://doi.org/".toList [] d.data).asString) ∧
    (∀ (item : SemanticScholarPaper) (cy : Int),
      (semanticScholarToRecord item cy).doi = item.externalDOI.getD "") := by
  refine ⟨?_, fun item cy => rfl, ?_, fun item cy => rfl⟩
  · intro t d h
    unfold extractDOIL at h
    cases h1 : findDoiPrefixed t with
    | some m =>
      rw [h1] at h
      injection h with h'
      obtain ⟨l, hl⟩ := findDoiPrefixed_from_group t m h1
      exact strip_group_shape m d (tryDoiTail_shape l m hl) h'.symm
    | none =>
      rw [h1] at h
      cases h2 : findDoiUrl t with
      | some m =>
        rw [h2] at h
        injection h with h'
        obtain ⟨l, hl⟩ := findDoiUrl_from_group t m h2
        exact strip_group_shape m d (tryDoiTail_shape l m hl) h'.symm
      | none =>
        rw [h2] at h
        cases h3 : findDoiBare none t with
        | some m =>
          rw [h3] at h
          injection h with h'
          obtain ⟨l, hl⟩ := findDoiBare_from_group t none m h3
          obtain ⟨ds, ns, hm, h4, hdig, hne, hw⟩ := tryDoiTailBare_shape l m hl
          exact strip_group_shape m d ⟨ds, ns, hm, h4, hdig, hne, hw⟩ h'.symm
        | none =>
          rw [h3] at h
          exact absurd h (by simp)
  · intro item cy d hd
    simp [openAlexToRecord, hd]

/-- Witness for `extractDOI_doi_shape`: the shape clause at a concrete
text. -/
theorem extractDOI_doi_shape_witness :
    ∃ ds rest, "10.1234/ab".toList = '1' :: '0' :: '.' :: (ds ++ '/' :: rest) ∧
      4 ≤ ds.length ∧ (∀ c ∈ ds, c.isDigit = true) ∧ (∀ c ∈ rest, isWS c = false) :=
  extractDOI_doi_shape.1 "doi: 10.1234/ab".toList "10.1234/ab".toList (by decide)

/-- C4 counterexample: `cleanAbstract` is not idempotent.  Entity decoding
runs after tag removal, so `cleanAbstract "&lt;b&gt;" = "<b>"`, and a
second application strips the freshly decoded tag, giving `""`. -/
theorem cleanAbstract_not_idempotent :
    cleanAbstract (cleanAbstract "&lt;b&gt;".toList) ≠ cleanAbstract "&lt;b&gt;".toList := by
  decide

/-! ### Idempotence of `cleanAbstract` on ampersand-free inputs

The machinery below shows that entity decoding is the *only* obstruction:
for inputs without `&` the function is idempotent.  `startsTagB l` says a
match of `/<[^>]+>/` begins at the head of `l`; `hasTagB` says one begins
somewhere. -/

theorem startsTagB_false_of_head {c : Char} (hc : ¬ c = '<') (t : List Char) :
    startsTagB (c :: t) = false := by
  cases t with
  | nil => rfl
  | cons a r => simp [startsTagB, hc]

theorem startsTagB_false_of_gt (t : List Char) : startsTagB ('<' :: '>' :: t) = false := by
  simp [startsTagB]

theorem startsTagB_false_of_no_gt {t : List Char} (h : '>' ∉ t) (c : Char) :
    startsTagB (c :: t) = false := by
  cases t with
  | nil => rfl
  | cons a r =>
    simp [startsTagB]
    intro _ ha
    constructor
    · intro h'
      exact absurd (h' ▸ List.mem_cons_self a r) h
    · intro h'
      exact absurd (List.mem_cons_of_mem a h') h

theorem hasTagB_cons_false {c : Char} {rest : List Char}
    (h : hasTagB (c :: rest) = false) :
    startsTagB (c :: rest) = false ∧ hasTagB rest = false := by
  have := h
  unfold hasTagB at this
  exact ⟨by simpa using (Bool.or_eq_false_iff.mp this).1,
    (Bool.or_eq_false_iff.mp this).2⟩

theorem hasTagB_cons_of (c : Char) (rest : List Char)
    (h1 : startsTagB (c :: rest) = false) (h2 : hasTagB rest = false) :
    hasTagB (c :: rest) = false := by
  unfold hasTagB
  simp [h1, h2]

theorem removeTagsAux_subset :
    ∀ (fuel : Nat) (l : List Char), ∀ c ∈ removeTagsAux fuel l, c ∈ l := by
  intro fuel
  induction fuel with
  | zero =>
    intro l c hc
    cases l with
    | nil => exact hc
    | cons a rest => exact hc
  | succ f ih =>
    intro l c hc
    cases l with
    | nil => exact hc
    | cons a rest =>
      unfold removeTagsAux at hc
      split at hc
      · have h1 := ih _ c hc
        have h2 : c ∈ (rest.dropWhile (· ≠ '>')) := List.tail_subset _ h1
        exact List.mem_cons_of_mem a ((List.dropWhile_sublist _).subset h2)
      · rcases List.mem_cons.mp hc with rfl | hc'
        · exact List.mem_cons_self _ _
        · exact List.mem_cons_of_mem a (ih rest c hc')

theorem removeJatsOpenAux_subset :
    ∀ (fuel : Nat) (l : List Char), ∀ c ∈ removeJatsOpenAux fuel l, c ∈ l := by
  intro fuel
  induction fuel with
  | zero =>
    intro l c hc
    cases l with
    | nil => exact hc
    | cons a rest => exact hc
  | succ f ih =>
    intro l c hc
    cases l with
    | nil => exact hc
    | cons a rest =>
      unfold removeJatsOpenAux at hc
      split at hc
      · have h1 := ih _ c hc
        have h2 : c ∈ ((rest.drop 5).dropWhile (· ≠ '>')) := List.tail_subset _ h1
        exact List.mem_cons_of_mem a
          (List.drop_subset 5 rest ((List.dropWhile_sublist _).subset h2))
      · rcases List.mem_cons.mp hc with rfl | hc'
        · exact List.mem_cons_self _ _
        · exact List.mem_cons_of_mem a (ih rest c hc')

theorem removeJatsCloseAux_subset :
    ∀ (fuel : Nat) (l : List Char), ∀ c ∈ removeJatsCloseAux fuel l, c ∈ l := by
  intro fuel
  induction fuel with
  | zero =>
    intro l c hc
    cases l with
    | nil => exact hc
    | cons a rest => exact hc
  | succ f ih =>
    intro l c hc
    cases l with
    | nil => exact hc
    | cons a rest =>
      unfold removeJatsCloseAux at hc
      split at hc
      · have h1 := ih _ c hc
        have h2 : c ∈ ((rest.drop 6).dropWhile (· ≠ '>')) := List.tail_subset _ h1
        exact List.mem_cons_of_mem a
          (List.drop_subset 6 rest ((List.dropWhile_sublist _).subset h2))
      · rcases List.mem_cons.mp hc with rfl | hc'
        · exact List.mem_cons_self _ _
        · exact List.mem_cons_of_mem a (ih rest c hc')

theorem collapseWSAux_mem :
    ∀ (l : List Char) (b : Bool), ∀ c ∈ collapseWSAux b l, c ∈ l ∨ c = ' ' := by
  intro l
  induction l with
  | nil => intro b c hc; simp [collapseWSAux] at hc
  | cons a rest ih =>
    intro b c hc
    unfold collapseWSAux at hc
    by_cases hw : isWS a
    · rw [if_pos hw] at hc
      cases b with
      | true =>
        rcases ih true c hc with h | h
        · exact Or.inl (List.mem_cons_of_mem a h)
        · exact Or.inr h
      | false =>
        rcases List.mem_cons.mp hc with rfl | hc'
        · exact Or.inr rfl
        · rcases ih true c hc' with h | h
          · exact Or.inl (List.mem_cons_of_mem a h)
          · exact Or.inr h
    · rw [if_neg hw] at hc
      rcases List.mem_cons.mp hc with rfl | hc'
      · exact Or.inl (List.mem_cons_self _ _)
      · rcases ih false c hc' with h | h
        · exact Or.inl (List.mem_cons_of_mem a h)
        · exact Or.inr h

theorem trimWS_subset (l : List Char) : ∀ c ∈ trimWS l, c ∈ l := by
  intro c hc
  unfold trimWS at hc
  have h1 := List.mem_reverse.mp hc
  have h2 := (List.dropWhile_sublist isWS).subset h1
  have h3 := List.mem_reverse.mp h2
  exact (List.dropWhile_sublist isWS).subset h3

theorem removeTagsAux_nil (fuel : Nat) : removeTagsAux fuel [] = [] := by
  cases fuel <;> rfl

theorem removeTagsAux_cons_ne (f : Nat) (c : Char) (rest : List Char) (hc : ¬ c = '<') :
    removeTagsAux (f + 1) (c :: rest) = c :: removeTagsAux f rest := by
  simp only [removeTagsAux]
  rw [if_neg]
  rintro ⟨h1, -⟩
  exact hc h1

/-- Key fact: the output of the generic tag-removal pass contains no match
of `/<[^>]+>/`.  A kept `<` is immediately followed in the output either
by `>` or by nothing, or has no `>` anywhere after it. -/
theorem removeTagsAux_no_tag :
    ∀ (fuel : Nat) (l : List Char), l.length ≤ fuel →
      hasTagB (removeTagsAux fuel l) = false := by
  intro fuel
  induction fuel with
  | zero =>
    intro l hl
    have h0 : l = [] := List.length_eq_zero.mp (Nat.le_zero.mp hl)
    subst h0
    rfl
  | succ f ih =>
    intro l hl
    cases l with
    | nil => rfl
    | cons a rest =>
      have hrest : rest.length ≤ f := by
        simpa using Nat.lt_succ_iff.mp (Nat.lt_of_lt_of_le (Nat.lt_succ_self _) (by simpa using hl))
      unfold removeTagsAux
      split
      case isTrue h =>
        apply ih
        calc ((rest.dropWhile (· ≠ '>')).tail).length
            ≤ (rest.dropWhile (· ≠ '>')).length := (List.tail_sublist _).length_le
          _ ≤ rest.length := (List.dropWhile_sublist _).length_le
          _ ≤ f := hrest
      case isFalse h =>
        apply hasTagB_cons_of
        · by_cases ha : a = '<'
          · subst ha
            have h' : rest.takeWhile (· ≠ '>') = [] ∨ rest.dropWhile (· ≠ '>') = [] := by
              by_cases h1 : rest.takeWhile (· ≠ '>') = []
              · exact Or.inl h1
              · by_cases h2 : rest.dropWhile (· ≠ '>') = []
                · exact Or.inr h2
                · exact absurd ⟨rfl, h1, h2⟩ h
            rcases h' with htake | hdrop
            · cases rest with
              | nil =>
                rw [removeTagsAux_nil]
                rfl
              | cons b t =>
                have hb : b = '>' := by
                  by_cases hb' : b = '>'
                  · exact hb'
                  · rw [List.takeWhile_cons] at htake
                    simp [hb'] at htake
                subst hb
                cases f with
                | zero => exact absurd hrest (by simp)
                | succ f2 =>
                  rw [removeTagsAux_cons_ne f2 '>' t (by decide)]
                  exact startsTagB_false_of_gt _
            · have hno : '>' ∉ removeTagsAux f rest := by
                intro hmem
                have := removeTagsAux_subset f rest '>' hmem
                have hall := List.dropWhile_eq_nil_iff.mp hdrop '>' this
                simp at hall
              exact startsTagB_false_of_no_gt hno '<'
          · exact startsTagB_false_of_head ha _
        · exact ih rest hrest

theorem mem_of_dropWhile_ne_nil {x : Char} {l : List Char}
    (h : l.dropWhile (· ≠ x) ≠ []) : x ∈ l := by
  by_contra hx
  apply h
  rw [List.dropWhile_eq_nil_iff]
  intro y hy
  simp only [decide_eq_true_eq]
  rintro rfl
  exact hx hy

theorem takeWhile_ne_nil_head {l : List Char} {x : Char}
    (h : l.takeWhile (· ≠ x) ≠ []) : ∃ b t, l = b :: t ∧ b ≠ x := by
  cases l with
  | nil => simp at h
  | cons b t =>
    refine ⟨b, t, rfl, ?_⟩
    rintro rfl
    rw [List.takeWhile_cons] at h
    simp at h

theorem removeTagsAux_eq_self :
    ∀ (l : List Char) (fuel : Nat), hasTagB l = false → removeTagsAux fuel l = l := by
  intro l
  induction l with
  | nil => intro fuel _; exact removeTagsAux_nil fuel
  | cons a rest ih =>
    intro fuel h
    obtain ⟨hstart, hrest⟩ := hasTagB_cons_false h
    cases fuel with
    | zero => rfl
    | succ f =>
      have hcond : ¬(a = '<' ∧ rest.takeWhile (· ≠ '>') ≠ [] ∧
          rest.dropWhile (· ≠ '>') ≠ []) := by
        rintro ⟨rfl, htake, hdrop⟩
        obtain ⟨b, t, rfl, hb⟩ := takeWhile_ne_nil_head htake
        have hgt : '>' ∈ b :: t := mem_of_dropWhile_ne_nil hdrop
        have : startsTagB ('<' :: b :: t) = true := by simp [startsTagB, hb, hgt]
        rw [this] at hstart
        exact absurd hstart (by decide)
      simp only [removeTagsAux]
      rw [if_neg hcond, ih f hrest]

theorem removeJatsOpenAux_eq_self :
    ∀ (l : List Char) (fuel : Nat), hasTagB l = false → removeJatsOpenAux fuel l = l := by
  intro l
  induction l with
  | nil => intro fuel _; cases fuel <;> rfl
  | cons a rest ih =>
    intro fuel h
    obtain ⟨hstart, hrest⟩ := hasTagB_cons_false h
    cases fuel with
    | zero => rfl
    | succ f =>
      have hcond : ¬(a = '<' ∧ "jats:".toList.isPrefixOf rest ∧
          ((rest.drop 5).takeWhile (· ≠ '>')) ≠ [] ∧
          ((rest.drop 5).dropWhile (· ≠ '>')) ≠ []) := by
        rintro ⟨rfl, hpre, -, hdrop⟩
        obtain ⟨t, ht⟩ := isPrefixOf_to_append _ _ hpre
        have hgt5 : '>' ∈ rest.drop 5 := mem_of_dropWhile_ne_nil hdrop
        have hgt : '>' ∈ rest := List.drop_subset 5 rest hgt5
        have hrest' : rest = 'j' :: ("ats:".toList ++ t) := by
          rw [← ht]
          rfl
        have hmem : '>' ∈ ("ats:".toList ++ t) := by
          have h2 := hrest' ▸ hgt
          rcases List.mem_cons.mp h2 with h' | h'
          · exact absurd h' (by decide)
          · exact h'
        have : startsTagB ('<' :: rest) = true := by
          rw [hrest']
          simp [startsTagB]
          rcases List.mem_append.mp hmem with h' | h'
          · exact absurd h' (by decide)
          · exact h'
        rw [this] at hstart
        exact absurd hstart (by decide)
      simp only [removeJatsOpenAux]
      rw [if_neg hcond, ih f hrest]

theorem removeJatsCloseAux_eq_self :
    ∀ (l : List Char) (fuel : Nat), hasTagB l = false → removeJatsCloseAux fuel l = l := by
  intro l
  induction l with
  | nil => intro fuel _; cases fuel <;> rfl
  | cons a rest ih =>
    intro fuel h
    obtain ⟨hstart, hrest⟩ := hasTagB_cons_false h
    cases fuel with
    | zero => rfl
    | succ f =>
      have hcond : ¬(a = '<' ∧ "/jats:".toList.isPrefixOf rest ∧
          ((rest.drop 6).takeWhile (· ≠ '>')) ≠ [] ∧
          ((rest.drop 6).dropWhile (· ≠ '>')) ≠ []) := by
        rintro ⟨rfl, hpre, -, hdrop⟩
        obtain ⟨t, ht⟩ := isPrefixOf_to_append _ _ hpre
        have hgt6 : '>' ∈ rest.drop 6 := mem_of_dropWhile_ne_nil hdrop
        have hgt : '>' ∈ rest := List.drop_subset 6 rest hgt6
        have hrest' : rest = '/' :: ("jats:".toList ++ t) := by
          rw [← ht]
          rfl
        have hmem : '>' ∈ ("jats:".toList ++ t) := by
          have h2 := hrest' ▸ hgt
          rcases List.mem_cons.mp h2 with h' | h'
          · exact absurd h' (by decide)
          · exact h'
        have : startsTagB ('<' :: rest) = true := by
          rw [hrest']
          simp [startsTagB]
          rcases List.mem_append.mp hmem with h' | h'
          · exact absurd h' (by decide)
          · exact h'
        rw [this] at hstart
        exact absurd hstart (by decide)
      simp only [removeJatsCloseAux]
      rw [if_neg hcond, ih f hrest]

theorem replaceStrAux_eq_self (pat rep : List Char) (hp : pat.head? = some '&') :
    ∀ (fuel : Nat) (l : List Char), '&' ∉ l → replaceStrAux pat rep fuel l = l := by
  intro fuel
  induction fuel with
  | zero => intro l _; cases l <;> rfl
  | succ f ih =>
    intro l h
    cases l with
    | nil => rfl
    | cons c rest =>
      have hcond : ¬(pat.isPrefixOf (c :: rest) ∧ pat ≠ []) := by
        rintro ⟨hpre, hne⟩
        cases pat with
        | nil => exact hne rfl
        | cons p ps =>
          have hp' : p = '&' := by simpa using hp
          obtain ⟨t, ht⟩ := isPrefixOf_to_append _ _ hpre
          have hpc : p = c := by
            have : p :: (ps ++ t) = c :: rest := by simpa using ht
            injection this with h1 _
          exact h (by rw [← hpc, hp']; exact List.mem_cons_self _ _)
      simp only [replaceStrAux]
      rw [if_neg hcond, ih rest (fun hm => h (List.mem_cons_of_mem c hm))]

theorem startsTagB_cons_lt_false {rest : List Char}
    (h : startsTagB ('<' :: rest) = false) :
    rest = [] ∨ (∃ t, rest = '>' :: t) ∨ '>' ∉ rest := by
  cases rest with
  | nil => exact Or.inl rfl
  | cons a t =>
    by_cases ha : a = '>'
    · exact Or.inr (Or.inl ⟨t, by rw [ha]⟩)
    · refine Or.inr (Or.inr ?_)
      simp [startsTagB, ha] at h
      simpa [ha] using h

theorem collapseWSAux_true_head (rest : List Char) :
    collapseWSAux true rest = [] ∨
      ∃ d t, collapseWSAux true rest = d :: t ∧ isWS d = false := by
  induction rest with
  | nil => exact Or.inl rfl
  | cons a r ih =>
    by_cases hw : isWS a
    · simpa [collapseWSAux, hw] using ih
    · exact Or.inr ⟨a, collapseWSAux false r, by simp [collapseWSAux, hw], by simp [hw]⟩

theorem collapseWSAux_no_tag :
    ∀ (l : List Char) (b : Bool), hasTagB l = false →
      hasTagB (collapseWSAux b l) = false := by
  intro l
  induction l with
  | nil => intro b _; cases b <;> rfl
  | cons c rest ih =>
    intro b h
    obtain ⟨hstart, hrest⟩ := hasTagB_cons_false h
    by_cases hw : isWS c
    · cases b with
      | true =>
        simpa [collapseWSAux, hw] using ih true hrest
      | false =>
        rw [show collapseWSAux false (c :: rest) = ' ' :: collapseWSAux true rest by
          simp [collapseWSAux, hw]]
        apply hasTagB_cons_of
        · exact startsTagB_false_of_head (by decide) _
        · exact ih true hrest
      -- note: `' '` is not `'<'`
    · have hout : collapseWSAux b (c :: rest) = c :: collapseWSAux false rest := by
        cases b <;> simp [collapseWSAux, hw]
      rw [hout]
      apply hasTagB_cons_of
      · by_cases hc : c = '<'
        · subst hc
          rcases startsTagB_cons_lt_false hstart with hnil | ⟨t, hgt⟩ | hno
          · subst hnil
            rfl
          · subst hgt
            have hgtws : isWS '>' = false := by decide
            rw [show collapseWSAux false ('>' :: t) = '>' :: collapseWSAux false t by
              simp [collapseWSAux, hgtws]]
            exact startsTagB_false_of_gt _
          · apply startsTagB_false_of_no_gt
            intro hmem
            rcases collapseWSAux_mem rest false '>' hmem with h' | h'
            · exact hno h'
            · exact absurd h' (by decide)
        · exact startsTagB_false_of_head hc _
      · exact ih false hrest

theorem startsTagB_append {p : List Char} (s : List Char) (h : startsTagB p = true) :
    startsTagB (p ++ s) = true := by
  cases p with
  | nil => exact Bool.noConfusion h
  | cons c q =>
    cases q with
    | nil => exact Bool.noConfusion h
    | cons a t =>
      show startsTagB (c :: a :: (t ++ s)) = true
      unfold startsTagB at h ⊢
      rw [Bool.and_eq_true, Bool.and_eq_true] at h
      obtain ⟨⟨h1, h2⟩, h3⟩ := h
      rw [Bool.and_eq_true, Bool.and_eq_true]
      refine ⟨⟨h1, h2⟩, ?_⟩
      rw [decide_eq_true_eq] at h3 ⊢
      rcases List.mem_cons.mp h3 with rfl | h'
      · exact List.mem_cons_self _ _
      · exact List.mem_cons_of_mem a (List.mem_append_left s h')

theorem hasTagB_append_left {p : List Char} (s : List Char) (h : hasTagB p = true) :
    hasTagB (p ++ s) = true := by
  induction p with
  | nil => simp [hasTagB] at h
  | cons c q ih =>
    unfold hasTagB at h ⊢
    rcases Bool.or_eq_true_iff.mp h with h' | h'
    · exact Bool.or_eq_true_iff.mpr (Or.inl (startsTagB_append s h'))
    · exact Bool.or_eq_true_iff.mpr (Or.inr (ih h'))

theorem hasTagB_of_append {p s : List Char} (h : hasTagB (p ++ s) = false) :
    hasTagB p = false := by
  by_contra hp
  rw [← ne_eq, Bool.ne_false_iff] at hp
  rw [hasTagB_append_left s hp] at h
  exact absurd h (by decide)

theorem hasTagB_dropWhile (p : Char → Bool) {l : List Char}
    (h : hasTagB l = false) : hasTagB (l.dropWhile p) = false := by
  induction l with
  | nil => exact h
  | cons c rest ih =>
    obtain ⟨h1, h2⟩ := hasTagB_cons_false h
    rw [List.dropWhile_cons]
    by_cases hp : p c
    · rw [if_pos hp]
      exact ih h2
    · rw [if_neg hp]
      exact h

theorem hasTagB_trimWS {l : List Char} (h : hasTagB l = false) :
    hasTagB (trimWS l) = false := by
  unfold trimWS
  have h1 : hasTagB (l.dropWhile isWS) = false := hasTagB_dropWhile isWS h
  have hdecomp : l.dropWhile isWS =
      ((l.dropWhile isWS).reverse.dropWhile isWS).reverse ++
        ((l.dropWhile isWS).reverse.takeWhile isWS).reverse := by
    rw [← List.reverse_append, List.takeWhile_append_dropWhile, List.reverse_reverse]
  rw [hdecomp] at h1
  exact hasTagB_of_append h1

theorem isoWS_tail {c : Char} {rest : List Char} (h : isoWS (c :: rest) = true) :
    isoWS rest = true := by
  unfold isoWS at h
  rw [Bool.and_eq_true] at h
  exact h.2

theorem isoWS_collapseWSAux :
    ∀ (l : List Char) (b : Bool), isoWS (collapseWSAux b l) = true := by
  intro l
  induction l with
  | nil => intro b; rfl
  | cons c rest ih =>
    intro b
    by_cases hw : isWS c
    · cases b with
      | true => simpa [collapseWSAux, hw] using ih true
      | false =>
        rw [show collapseWSAux false (c :: rest) = ' ' :: collapseWSAux true rest by
          simp [collapseWSAux, hw]]
        unfold isoWS
        rw [Bool.and_eq_true]
        refine ⟨?_, ih true⟩
        have hws : isWS ' ' = true := by decide
        rw [if_pos hws, Bool.and_eq_true]
        refine ⟨by decide, ?_⟩
        rcases collapseWSAux_true_head rest with h0 | ⟨d, t, hdt, hd⟩
        · rw [h0]
          rfl
        · rw [hdt]
          simp [headNotWS, hd]
    · rw [show collapseWSAux b (c :: rest) = c :: collapseWSAux false rest by
        cases b <;> simp [collapseWSAux, hw]]
      unfold isoWS
      rw [Bool.and_eq_true]
      exact ⟨by simp [hw], ih false⟩

theorem isoWS_dropWhile (p : Char → Bool) :
    ∀ l : List Char, isoWS l = true → isoWS (l.dropWhile p) = true := by
  intro l
  induction l with
  | nil => intro h; exact h
  | cons c rest ih =>
    intro h
    rw [List.dropWhile_cons]
    by_cases hp : p c
    · rw [if_pos hp]
      exact ih (isoWS_tail h)
    · rw [if_neg hp]
      exact h

theorem isoWS_of_append : ∀ (p s : List Char), isoWS (p ++ s) = true → isoWS p = true := by
  intro p
  induction p with
  | nil => intro s _; rfl
  | cons c q ih =>
    intro s h
    rw [List.cons_append] at h
    unfold isoWS at h
    rw [Bool.and_eq_true] at h
    obtain ⟨hc, hrest⟩ := h
    unfold isoWS
    rw [Bool.and_eq_true]
    refine ⟨?_, ih s hrest⟩
    by_cases hw : isWS c
    · rw [if_pos hw] at hc ⊢
      rw [Bool.and_eq_true] at hc
      obtain ⟨hsp, hhead⟩ := hc
      rw [Bool.and_eq_true]
      refine ⟨hsp, ?_⟩
      cases q with
      | nil => rfl
      | cons d t => simpa [headNotWS] using hhead
    · rw [if_neg hw]

theorem collapseWSAux_iso :
    ∀ l : List Char, isoWS l = true →
      collapseWSAux false l = l ∧
      (∀ d t, l = d :: t → isWS d = false → collapseWSAux true l = l) := by
  intro l
  induction l with
  | nil => exact fun _ => ⟨rfl, by rintro d t h; cases h⟩
  | cons c rest ih =>
    intro h
    unfold isoWS at h
    rw [Bool.and_eq_true] at h
    obtain ⟨hc, hrest⟩ := h
    obtain ⟨ih1, ih2⟩ := ih hrest
    constructor
    · by_cases hw : isWS c
      · rw [if_pos hw] at hc
        rw [Bool.and_eq_true] at hc
        obtain ⟨hsp, hhead⟩ := hc
        have hcsp : c = ' ' := by simpa using hsp
        rw [show collapseWSAux false (c :: rest) = ' ' :: collapseWSAux true rest by
          simp [collapseWSAux, hw]]
        cases rest with
        | nil => rw [hcsp]; rfl
        | cons d t =>
          have hd : isWS d = false := by simpa [headNotWS] using hhead
          rw [ih2 d t rfl hd, hcsp]
      · rw [show collapseWSAux false (c :: rest) = c :: collapseWSAux false rest by
          simp [collapseWSAux, hw]]
        rw [ih1]
    · intro d t heq hd
      have hcd : c = d := by injection heq
      have hw : isWS c = false := hcd ▸ hd
      rw [show collapseWSAux true (c :: rest) = c :: collapseWSAux false rest by
        simp [collapseWSAux, hw]]
      rw [ih1]

theorem dropWhile_head_false (p : Char → Bool) :
    ∀ (l : List Char) (d : Char) (t : List Char), l.dropWhile p = d :: t → p d = false := by
  intro l
  induction l with
  | nil => intro d t h; simp at h
  | cons c rest ih =>
    intro d t h
    rw [List.dropWhile_cons] at h
    by_cases hp : p c
    · rw [if_pos hp] at h
      exact ih d t h
    · rw [if_neg hp] at h
      injection h with h1 _
      subst h1
      exact Bool.eq_false_iff.mpr hp

theorem trim_decomp (l : List Char) : l.dropWhile isWS =
    trimWS l ++ ((l.dropWhile isWS).reverse.takeWhile isWS).reverse := by
  unfold trimWS
  rw [← List.reverse_append, List.takeWhile_append_dropWhile, List.reverse_reverse]

theorem trimWS_head_not_ws {l : List Char} {d : Char} {t : List Char}
    (h : trimWS l = d :: t) : isWS d = false := by
  have hdec := trim_decomp l
  rw [h] at hdec
  exact dropWhile_head_false isWS l d _ hdec

theorem trimWS_reverse_eq (l : List Char) :
    (trimWS l).reverse = (l.dropWhile isWS).reverse.dropWhile isWS := by
  unfold trimWS
  rw [List.reverse_reverse]

theorem trimWS_last_not_ws {l : List Char} {d : Char} {t : List Char}
    (h : (trimWS l).reverse = d :: t) : isWS d = false := by
  rw [trimWS_reverse_eq] at h
  exact dropWhile_head_false isWS _ d _ h

theorem dropWhile_eq_self_of_head (p : Char → Bool) (l : List Char)
    (h : ∀ d t, l = d :: t → p d = false) : l.dropWhile p = l := by
  cases l with
  | nil => rfl
  | cons c rest =>
    rw [List.dropWhile_cons, if_neg]
    simp [h c rest rfl]

theorem trimWS_trimWS (l : List Char) : trimWS (trimWS l) = trimWS l := by
  have hdrop : (trimWS l).dropWhile isWS = trimWS l :=
    dropWhile_eq_self_of_head isWS (trimWS l) (fun d t ht => trimWS_head_not_ws ht)
  have hrev : (trimWS l).reverse.dropWhile isWS = (trimWS l).reverse :=
    dropWhile_eq_self_of_head isWS (trimWS l).reverse (fun d t ht => trimWS_last_not_ws ht)
  show ((((trimWS l).dropWhile isWS).reverse.dropWhile isWS)).reverse = trimWS l
  rw [hdrop, hrev, List.reverse_reverse]

theorem isoWS_trimWS {l : List Char} (h : isoWS l = true) : isoWS (trimWS l) = true := by
  have h1 : isoWS (l.dropWhile isWS) = true := isoWS_dropWhile isWS l h
  rw [trim_decomp l] at h1
  exact isoWS_of_append _ _ h1

/-- Unfolding of `cleanAbstract` with its let-chain written as a composition. -/
theorem cleanAbstract_eq (x : List Char) :
    cleanAbstract x = trimWS (collapseWS (replaceStr "&apos;".toList ['\'']
      (replaceStr "&quot;".toList "\"".toList (replaceStr "&amp;".toList "&".toList
      (replaceStr "&gt;".toList ">".toList (replaceStr "&lt;".toList "<".toList
      (removeTags (removeJatsClose (removeJatsOpen x))))))))) := rfl

theorem removeJatsOpen_eq_self {x : List Char} (h : hasTagB x = false) :
    removeJatsOpen x = x := removeJatsOpenAux_eq_self x _ h

theorem removeJatsClose_eq_self {x : List Char} (h : hasTagB x = false) :
    removeJatsClose x = x := removeJatsCloseAux_eq_self x _ h

theorem removeTags_eq_self {x : List Char} (h : hasTagB x = false) :
    removeTags x = x := removeTagsAux_eq_self x _ h

theorem replaceStr_eq_self (pat rep : List Char) {x : List Char}
    (hp : pat.head? = some '&') (h : '&' ∉ x) : replaceStr pat rep x = x :=
  replaceStrAux_eq_self pat rep hp _ x h

theorem collapseWS_eq_self {x : List Char} (h : isoWS x = true) : collapseWS x = x :=
  (collapseWSAux_iso x h).1

/-- C4 amended: `cleanAbstract` is idempotent on every input containing no
ampersand.  (Entity decoding is the only obstruction to idempotence: with
no `&`, the decoding passes are the identity, the tag-removal passes leave
no tag behind, and whitespace collapsing plus trimming is idempotent.) -/
theorem cleanAbstract_idempotent_no_amp :
    ∀ l : List Char, '&' ∉ l → cleanAbstract (cleanAbstract l) = cleanAbstract l := by
  intro l hamp
  have hamp3 : '&' ∉ removeTags (removeJatsClose (removeJatsOpen l)) := by
    intro hm
    exact hamp (removeJatsOpenAux_subset _ _ _
      (removeJatsCloseAux_subset _ _ _ (removeTagsAux_subset _ _ _ hm)))
  have htag3 : hasTagB (removeTags (removeJatsClose (removeJatsOpen l))) = false :=
    removeTagsAux_no_tag _ _ (Nat.le_refl _)
  have hy : cleanAbstract l =
      trimWS (collapseWS (removeTags (removeJatsClose (removeJatsOpen l)))) := by
    rw [cleanAbstract_eq,
      replaceStr_eq_self "&lt;".toList "<".toList rfl hamp3,
      replaceStr_eq_self "&gt;".toList ">".toList rfl hamp3,
      replaceStr_eq_self "&amp;".toList "&".toList rfl hamp3,
      replaceStr_eq_self "&quot;".toList "\"".toList rfl hamp3,
      replaceStr_eq_self "&apos;".toList ['\''] rfl hamp3]
  have htagy :
      hasTagB (trimWS (collapseWS (removeTags (removeJatsClose (removeJatsOpen l))))) = false :=
    hasTagB_trimWS (collapseWSAux_no_tag _ false htag3)
  have hampy :
      '&' ∉ trimWS (collapseWS (removeTags (removeJatsClose (removeJatsOpen l)))) := by
    intro hm
    have h1 := trimWS_subset _ _ hm
    rcases collapseWSAux_mem _ false _ h1 with h2 | h2
    · exact hamp3 h2
    · exact absurd h2 (by decide)
  have hisoy :
      isoWS (trimWS (collapseWS (removeTags (removeJatsClose (removeJatsOpen l))))) = true :=
    isoWS_trimWS (isoWS_collapseWSAux _ false)
  rw [hy, cleanAbstract_eq,
    removeJatsOpen_eq_self htagy, removeJatsClose_eq_self htagy, removeTags_eq_self htagy,
    replaceStr_eq_self "&lt;".toList "<".toList rfl hampy,
    replaceStr_eq_self "&gt;".toList ">".toList rfl hampy,
    replaceStr_eq_self "&amp;".toList "&".toList rfl hampy,
    replaceStr_eq_self "&quot;".toList "\"".toList rfl hampy,
    replaceStr_eq_self "&apos;".toList ['\''] rfl hampy,
    collapseWS_eq_self hisoy,
    trimWS_trimWS]

/-- Witness for `cleanAbstract_idempotent_no_amp`: a concrete
ampersand-free JATS abstract. -/
theorem cleanAbstract_idempotent_no_amp_witness :
    cleanAbstract (cleanAbstract "<jats:p>Hi  there</jats:p>".toList) =
      cleanAbstract "<jats:p>Hi  there</jats:p>".toList :=
  cleanAbstract_idempotent_no_amp "<jats:p>Hi  there</jats:p>".toList (by decide)
